import Mathlib

/-!
Verification of the frame-cache core of the `framescript_benchmark` backend
(`backend/src/decoder.rs`, `backend/src/future.rs`,
`backend/src/ffmpeg/hw_decoder.rs`).

The Rust code is embedded shallowly:

* `SharedManualFuture` (future.rs) becomes a record holding the optional
  resolved value and the number of registered pending completers; all clones
  of a handle share one such state, so the model tracks the shared state
  directly.
* `CachedDecoder`'s mutable fields become the record `DecState`.  The
  `frames` HashMap is an association list whose list order models the
  (unspecified) internal iteration order of the Rust `HashMap`; a handle
  stored in it is `Option Bytes` (`none` = unresolved).  Byte buffers are
  `List Nat`.
* The `usize` atomics wrap modulo `2^64` (64-bit target) where the source
  can underflow/overflow (`fetch_add` / `fetch_sub` on `ENTIRE_CACHE_SIZE`);
  `u32` arithmetic wraps modulo `2^32` (Rust release-profile semantics).
* `tokio::spawn`-ed window-decode tasks are run at their spawn point
  ("eager schedule"): `getFrameSeq` models one `get_frame` call under the
  sequential schedule in which the spawned window task runs to completion
  right after Phase A and no other task interleaves.  A `todo!()` panic is
  modelled by returning no bytes (`none`) while keeping the shared state the
  panicking code left behind.
* The external `extract_frames_rgba` ffmpeg invocation is an oracle
  parameter; the embedded adapter functions also return the list of oracle
  calls they performed, so that theorems can speak about which decode
  windows were requested.
-/

/-- Byte buffers (`Vec<u8>`): lists of naturals. -/
def Bytes : Type := List Nat

instance : DecidableEq Bytes := inferInstanceAs (DecidableEq (List Nat))

instance : Membership Nat Bytes := inferInstanceAs (Membership Nat (List Nat))

/-- `2^32`, the modulus of Rust `u32` arithmetic. -/
def U32 : Nat := 4294967296

/-- `2^64`, the modulus of Rust `usize` arithmetic on the 64-bit target. -/
def U64 : Nat := 18446744073709551616

/-- Wrapping `usize` addition (`AtomicUsize::fetch_add`). -/
def wrapAdd (c l : Nat) : Nat := (c + l) % U64

/-- Wrapping `usize` subtraction (`AtomicUsize::fetch_sub`). -/
def wrapSub (c l : Nat) : Nat := (c + (U64 - l % U64)) % U64

/-! ## `future.rs`: `SharedManualFuture` -/

/-- Shared state of a `SharedManualFuture<T>` (future.rs:8-11): the optional
resolved value together with the pending completer list, of which only the
length is relevant (each completer is notified with a clone of the value).
Every clone of a handle points to this same state (`Arc`), so the model works
on the shared state directly. -/
structure SharedManualFuture (α : Type) where
  value : Option α
  completers : Nat
deriving DecidableEq, Repr

namespace SharedManualFuture

/-- `SharedManualFuture::new` (future.rs:14-18). -/
def new : SharedManualFuture α := ⟨Option.none, 0⟩

/-- `SharedManualFuture::new_completed` (future.rs:20-24). -/
def new_completed (v : α) : SharedManualFuture α := ⟨some v, 0⟩

/-- `is_completed` (future.rs:26-28). -/
def is_completed (s : SharedManualFuture α) : Bool := s.value.isSome

/-- `get_now` (future.rs:30-32). -/
def get_now (s : SharedManualFuture α) : Option α := s.value

/-- `get` (future.rs:34-45): if resolved, the returned future is already
complete with the value (`some v`); otherwise a fresh completer is pushed
and the caller must wait (`none`). -/
def get (s : SharedManualFuture α) : SharedManualFuture α × Option α :=
  match s.value with
  | some v => (s, some v)
  | Option.none => ({ s with completers := s.completers + 1 }, Option.none)

/-- `complete` (future.rs:47-66): a no-op when already resolved; otherwise
stores the value, drains the completer list and notifies each drained
completer with a clone of the value (the returned list). -/
def complete (s : SharedManualFuture α) (v : α) : SharedManualFuture α × List α :=
  match s.value with
  | some _ => (s, [])
  | Option.none => (⟨some v, 0⟩, List.replicate s.completers v)

/-- The state-changing operations offered by a handle. -/
inductive Op (α : Type) where
  | get
  | complete (v : α)

/-- Effect of one operation on the shared state. -/
def applyOp (s : SharedManualFuture α) : Op α → SharedManualFuture α
  | Op.get => (s.get).1
  | Op.complete v => (s.complete v).1

/-- Effect of a sequence of operations on the shared state. -/
def runOps (s : SharedManualFuture α) (ops : List (Op α)) : SharedManualFuture α :=
  ops.foldl applyOp s

end SharedManualFuture

/-! ## Association-list helpers

The Rust `HashMap`s become association lists; the list order models the
map's (unspecified) internal iteration order.  `setKey` replaces the first
binding in place (as mutating an occupied entry does), `entryOrInsert`
models `entry(k).or_insert_with(..)` and `removeKey` models `remove`. -/

def lookupKey {α : Type} : List (Nat × α) → Nat → Option α
  | [], _ => Option.none
  | (k', v) :: t, k => if k' = k then some v else lookupKey t k

def setKey {α : Type} : List (Nat × α) → Nat → α → List (Nat × α)
  | [], k, v => [(k, v)]
  | (k', v') :: t, k, v => if k' = k then (k, v) :: t else (k', v') :: setKey t k v

def removeKey {α : Type} : List (Nat × α) → Nat → List (Nat × α)
  | [], _ => []
  | (k', v') :: t, k => if k' = k then removeKey t k else (k', v') :: removeKey t k

/-! ## `decoder.rs`: data model -/

/-- The per-frame status enum (decoder.rs:115-120). -/
inductive FrameState where
  | None
  | Wait
  | Drop
deriving DecidableEq, Repr

/-- The mutable fields of `Inner` (decoder.rs:104-113) together with the
process-global byte counter `ENTIRE_CACHE_SIZE` (decoder.rs:78).  `frames`
maps a frame index to the shared state of its completion handle
(`Option Bytes`, `none` = unresolved); the association-list order models the
`HashMap`'s internal iteration order.  `decodingFrames` is the claimed-index
set (membership is what matters; the source never removes elements). -/
structure DecState where
  frames : List (Nat × Option Bytes)
  frameStates : List (Nat × FrameState)
  decodingFrames : List Nat
  runningDecodeTasks : Nat
  entireCacheSize : Nat
deriving DecidableEq

/-- Read a frame's status, defaulting to `None` (decoder.rs:153-156, 251-254). -/
def stateOf (s : DecState) (i : Nat) : FrameState :=
  (lookupKey s.frameStates i).getD FrameState.None

/-- The immediately-available value of the handle for `i`, if the handle
exists and is resolved (`frames.get(&i)` + `get_now`). -/
def handleValue (s : DecState) (i : Nat) : Option Bytes :=
  match lookupKey s.frames i with
  | some (some b) => some b
  | _ => Option.none

/-- `frames.entry(i).or_insert_with(|| SharedManualFuture::new())`
(decoder.rs:220-223, 281-284): create-or-fetch the handle for `i`. -/
def entryOrInsert (l : List (Nat × Option Bytes)) (k : Nat) : List (Nat × Option Bytes) :=
  match lookupKey l k with
  | some _ => l
  | Option.none => l ++ [(k, Option.none)]

/-- Resolve the handle for `k` with `b`: `SharedManualFuture::complete`, a
no-op when the handle is already resolved (future.rs:51-53). -/
def completeHandle (l : List (Nat × Option Bytes)) (k : Nat) (b : Bytes) :
    List (Nat × Option Bytes) :=
  match lookupKey l k with
  | some Option.none => setKey l k (some b)
  | _ => l

/-! ## `decoder.rs`: `generate_empty_frame` -/

/-- The four `buf[idx..idx+3]` stores of one loop body
(decoder.rs:365-368): red 255, green 0, blue 0, alpha 255. -/
def writePixel (buf : List Nat) (idx : Nat) : List Nat :=
  ((((buf.set idx 255).set (idx + 1) 0).set (idx + 2) 0).set (idx + 3) 255)

/-- `generate_empty_frame` (decoder.rs:353-373).  The buffer length and the
per-pixel index are computed in `u32` (wrapping, release profile) before the
cast to `usize`. -/
def generate_empty_frame (w h : Nat) : List Nat :=
  (List.range h).foldl
    (fun buf y =>
      (List.range w).foldl (fun buf x => writePixel buf (((y * w + x) * 4) % U32)) buf)
    (List.replicate ((w * h * 4) % U32) 0)

/-! ## `ffmpeg/hw_decoder.rs`: the decoder adapter

The raw ffmpeg invocation `extract_frames_rgba(path, start, end_exclusive,
w, h, hwaccel)` is an oracle parameter (the `path`, `w`, `h` arguments are
fixed per `CachedDecoder` and omitted from the oracle).  The embedded
adapter functions additionally return the list of oracle calls performed. -/

/-- One `extract_frames_rgba` invocation: the `hwaccel` flag, `start_frame`
and `end_frame_exclusive` arguments. -/
structure AdapterCall where
  hw : Bool
  start : Nat
  endExclusive : Nat
deriving DecidableEq, Repr

/-- The external ffmpeg extractor: `hwaccel flag → start → end_exclusive →
frames or error`. -/
def Oracle : Type := Bool → Nat → Nat → Except String (List Bytes)

/-- `extract_frame_window_hw_rgba` (hw_decoder.rs:4-45): try hardware, fall
back to software, substitute a single empty frame for an empty result, and
pair each returned frame with its absolute index. -/
def extract_frame_window_hw_rgba (oracle : Oracle) (start_frame end_frame w h : Nat) :
    Except String (List (Nat × Bytes)) × List AdapterCall :=
  let end_exclusive := end_frame + 1
  let withFrames : List Bytes → Except String (List (Nat × Bytes)) := fun frames =>
    if frames.isEmpty then
      Except.ok [(start_frame, generate_empty_frame w h)]
    else
      Except.ok (frames.enum.map (fun p => (start_frame + p.1, p.2)))
  match oracle true start_frame end_exclusive with
  | Except.ok frames => (withFrames frames, [⟨true, start_frame, end_exclusive⟩])
  | Except.error hw_err =>
      match oracle false start_frame end_exclusive with
      | Except.ok frames =>
          (withFrames frames,
           [⟨true, start_frame, end_exclusive⟩, ⟨false, start_frame, end_exclusive⟩])
      | Except.error sw_err =>
          (Except.error ("hwaccel failed: " ++ hw_err ++ "; software failed: " ++ sw_err),
           [⟨true, start_frame, end_exclusive⟩, ⟨false, start_frame, end_exclusive⟩])

/-- `extract_frame_hw_rgba` (hw_decoder.rs:47-60): request the window whose
inclusive end is `target_frame + 1` and return the first frame's payload. -/
def extract_frame_hw_rgba (oracle : Oracle) (target_frame w h : Nat) :
    Except String Bytes × List AdapterCall :=
  match extract_frame_window_hw_rgba oracle target_frame (target_frame + 1) w h with
  | (Except.ok frames, calls) =>
      (match frames.head? with
       | some p => Except.ok p.2
       | Option.none => Except.ok (generate_empty_frame w h), calls)
  | (Except.error e, calls) => (Except.error e, calls)

/-! ## `decoder.rs`: `get_frame` phases -/

/-- `DECODE_CHUNK` (decoder.rs:183). -/
def DECODE_CHUNK : Nat := 120

/-- The window-end search loop (decoder.rs:186-192): starting at `cur` with
`fuel` iterations left, stop at the first already-claimed index, keeping the
last unclaimed one in `last`. -/
def lastFrameLoop (dec : List Nat) : Nat → Nat → Nat → Nat
  | _, last, 0 => last
  | cur, last, Nat.succ fuel =>
      if dec.contains cur then last else lastFrameLoop dec (cur + 1) cur fuel

/-- The indices `i ..= last` inserted into `decoding_frames`
(decoder.rs:194-196). -/
def claimRange (i last : Nat) : List Nat :=
  (List.range (last + 1 - i)).map (fun k => i + k)

/-- Phase A (decoder.rs:180-201): under the `decoding_frames` lock, claim a
window and increment the run counter; returns the `(start, last_frame)`
window of the spawned task, or `none` when `i` was already claimed.  The
loop bound `i + DECODE_CHUNK` is `u32` arithmetic, hence the `% U32`. -/
def phaseA (s : DecState) (i : Nat) : DecState × Option (Nat × Nat) :=
  if s.decodingFrames.contains i then (s, Option.none)
  else
    let endv := (i + DECODE_CHUNK) % U32
    let last := lastFrameLoop s.decodingFrames i i (endv - i)
    ({ s with
        decodingFrames := s.decodingFrames ++ claimRange i last,
        runningDecodeTasks := s.runningDecodeTasks + 1 },
     some (i, last))

/-- The success path of the background window task (decoder.rs:214-235):
first pass creates-or-fetches the handle of every returned index under the
map write lock; second pass adds each payload length to `ENTIRE_CACHE_SIZE`
and resolves the handle. -/
def publishResults (s : DecState) (result : List (Nat × Bytes)) : DecState :=
  let frames1 := result.foldl (fun fs p => entryOrInsert fs p.1) s.frames
  result.foldl
    (fun st p =>
      { st with
          entireCacheSize := wrapAdd st.entireCacheSize p.2.length,
          frames := completeHandle st.frames p.1 p.2 })
    { s with frames := frames1 }

/-- The whole background window task (decoder.rs:204-243) applied to the
adapter's result: on `Ok` publish and then decrement the run counter; on
`Err` the task hits `todo!()` (decoder.rs:236) and panics — the returned
flag is `true`, nothing is published and, crucially, the decrement at
decoder.rs:239-242 never runs. -/
def runDecodeTask (s : DecState) (res : Except String (List (Nat × Bytes))) :
    DecState × Bool :=
  match res with
  | Except.ok r =>
      let s' := publishResults s r
      ({ s' with runningDecodeTasks := s'.runningDecodeTasks - 1 }, false)
  | Except.error _ => (s, true)

/-- Phase B (decoder.rs:248-259): read the prior state of `i` (default
`None`) and unconditionally overwrite it with `Wait`. -/
def phaseB (s : DecState) (i : Nat) : DecState × FrameState :=
  (({ s with frameStates := setKey s.frameStates i FrameState.Wait }), stateOf s i)

/-- The stall-recovery walk (decoder.rs:301-328): probe `i-1, i-2, …` for a
handle with an immediately available value; falling past index 0, return a
fresh empty frame. -/
def stallRecover (s : DecState) (w h : Nat) : Nat → Bytes
  | 0 => generate_empty_frame w h
  | Nat.succ k =>
      match handleValue s k with
      | some b => b
      | Option.none => stallRecover s w h k

/-- Phase D (decoder.rs:336-347): for a non-zero index, subtract the
delivered payload's length from `ENTIRE_CACHE_SIZE` (a wrapping `fetch_sub`)
and remove the handle from the frames map; index 0 is exempt. -/
def phaseD (s : DecState) (i : Nat) (frame : Bytes) : DecState :=
  if i = 0 then s
  else
    { s with
        entireCacheSize := wrapSub s.entireCacheSize frame.length,
        frames := removeKey s.frames i }

/-- Result of one modelled `get_frame` call. -/
structure GFResult where
  state : DecState
  bytes : Option Bytes
  calls : List AdapterCall
  tookAwaitPath : Bool
deriving DecidableEq

/-- One `get_frame(i)` call (decoder.rs:179-350) under the eager sequential
schedule: the spawned window task (if any) runs to completion right after
Phase A, and no other task interleaves.

`bytes = none` models a call that never returns bytes: either a `todo!()`
panic (background task: decoder.rs:236 — the shared state keeps the
un-decremented run counter; synchronous re-decode: decoder.rs:273 — the
panic propagates to the caller), or an await that under this schedule would
loop forever (timeout with `running_decode_tasks > 0`).  `calls` is the list
of ffmpeg invocations performed, `tookAwaitPath` is `true` exactly when the
call reached the Phase C await on the handle. -/
def getFrameSeq (oracle : Oracle) (w h : Nat) (s : DecState) (i : Nat) : GFResult :=
  let a := phaseA s i
  let afterTask :=
    match a.2 with
    | some window =>
        let r := extract_frame_window_hw_rgba oracle window.1 window.2 w h
        ((runDecodeTask a.1 r.1).1, r.2)
    | Option.none => (a.1, ([] : List AdapterCall))
  let b := phaseB afterTask.1 i
  if b.2 = FrameState.Wait ∨ b.2 = FrameState.Drop then
    match extract_frame_hw_rgba oracle i w h with
    | (Except.ok payload, calls2) => ⟨b.1, some payload, afterTask.2 ++ calls2, false⟩
    | (Except.error _, calls2) => ⟨b.1, Option.none, afterTask.2 ++ calls2, false⟩
  else
    let s4 := { b.1 with frames := entryOrInsert b.1.frames i }
    match handleValue s4 i with
    | some v => ⟨phaseD s4 i v, some v, afterTask.2, true⟩
    | Option.none =>
        if s4.runningDecodeTasks = 0 then
          let v := stallRecover s4 w h i
          ⟨phaseD s4 i v, some v, afterTask.2, true⟩
        else ⟨s4, Option.none, afterTask.2, true⟩

/-! ## `decoder.rs`: the GC sweeper -/

/-- The keys of the frames map in internal iteration order
(`frames.keys().cloned().collect()`, decoder.rs:148). -/
def framesKeys (s : DecState) : List Nat := s.frames.map (fun p => p.1)

/-- The eviction loop body (decoder.rs:150-171) over the (already reversed)
snapshot of indices.  Returns the final state and the list of evicted
indices in eviction order.  An index missing from the map or with an
unresolved handle, or whose state is not `None`, is skipped; an eviction
removes the handle, marks the state `Drop` and subtracts the payload length
(wrapping `fetch_sub`); the loop breaks as soon as the counter drops below
the maximum.  (The `unwrap` at decoder.rs:151 cannot fail: the snapshot is
taken under the same write lock the sweep holds, and only the sweep itself
removes entries — each index is visited once.) -/
def gcLoop (maxBytes : Nat) : DecState → List Nat → DecState × List Nat
  | s, [] => (s, [])
  | s, idx :: rest =>
      match lookupKey s.frames idx with
      | some (some payload) =>
          if stateOf s idx = FrameState.None then
            let s' :=
              { s with
                  frames := removeKey s.frames idx,
                  frameStates := setKey s.frameStates idx FrameState.Drop,
                  entireCacheSize := wrapSub s.entireCacheSize payload.length }
            if s'.entireCacheSize < maxBytes then (s', [idx])
            else
              let r := gcLoop maxBytes s' rest
              (r.1, idx :: r.2)
          else gcLoop maxBytes s rest
      | _ => gcLoop maxBytes s rest

/-- One iteration of the GC sweeper's loop body (decoder.rs:142-172): when
the cache counter has reached the maximum, snapshot the map's keys and run
the eviction loop over the *reversed* snapshot (`.into_iter().rev()`,
decoder.rs:150). -/
def gcSweep (s : DecState) (maxBytes : Nat) : DecState × List Nat :=
  if maxBytes ≤ s.entireCacheSize then gcLoop maxBytes s (framesKeys s).reverse
  else (s, [])

/-! ## Concrete states and oracles used for counterexamples and failing-input
evaluations -/

/-- An oracle that always fails (both hardware and software attempts). -/
def failOracle : Oracle := fun _ _ _ => Except.error "decode failed"

/-- Shared state right after Phase A scheduled the window `[0, 119]`: the
indices are claimed and the run counter is 1. -/
def errWindowState : DecState :=
  { frames := [], frameStates := [], decodingFrames := claimRange 0 119,
    runningDecodeTasks := 1, entireCacheSize := 0 }

/-- State in which frame 0 was requested before (state `Wait`, window
claimed) — a repeated `get_frame(0)` takes the Phase B re-decode branch. -/
def errWaitState : DecState :=
  { frames := [(0, some ([1, 2, 3, 4] : List Nat))], frameStates := [(0, FrameState.Wait)],
    decodingFrames := claimRange 0 119, runningDecodeTasks := 0, entireCacheSize := 4 }

/-- State used by the C4 counterexample and witness: frame 5 was requested
before (`Wait`) and is claimed. -/
def s4c : DecState :=
  { frames := [], frameStates := [(5, FrameState.Wait)], decodingFrames := [5],
    runningDecodeTasks := 0, entireCacheSize := 0 }

/-- Oracle used by the C4 counterexample: always decodes successfully. -/
def o4 : Oracle := fun _ _ _ => Except.ok ([[1], [2], [3]] : List (List Nat))

/-- Oracle for the C2 counterexample: the 120-frame cold window decodes to a
single frame with payload `[7]`; any other window (in particular the
re-decode window with exclusive end 2) decodes to frames with payload
`[9]`. -/
def o2 : Oracle := fun _ _ e =>
  if e = 120 then Except.ok ([[7]] : List (List Nat))
  else Except.ok ([[9], [9]] : List (List Nat))

/-- The empty decoder state (a freshly constructed `CachedDecoder`). -/
def emptyDecState : DecState :=
  { frames := [], frameStates := [], decodingFrames := [], runningDecodeTasks := 0,
    entireCacheSize := 0 }

/-- The delivery fold of `publishResults` (second pass). -/
def deliverStep (st : DecState) (p : Nat × Bytes) : DecState :=
  { st with
      entireCacheSize := wrapAdd st.entireCacheSize p.2.length,
      frames := completeHandle st.frames p.1 p.2 }

/-- Length of the (resolved) payload held for `idx`, 0 if none. -/
def payloadLen (s : DecState) (idx : Nat) : Nat :=
  ((handleValue s idx).getD ([] : List Nat)).length

/-- Eviction eligibility (decoder.rs:158): the handle exists and is
resolved, and the frame state is `None`. -/
def eligible (s : DecState) (idx : Nat) : Prop :=
  (∃ b, lookupKey s.frames idx = some (some b)) ∧ stateOf s idx = FrameState.None

/-- Descending insertion into a descending-sorted list (specification-side,
used only to state the claim's "descending index order"). -/
def insertDesc (x : Nat) : List Nat → List Nat
  | [] => [x]
  | y :: t => if y ≤ x then x :: y :: t else y :: insertDesc x t

/-- Descending insertion sort (specification-side). -/
def sortDesc : List Nat → List Nat
  | [] => []
  | x :: t => insertDesc x (sortDesc t)

/-- The sweep the claim describes, word for word: iterate the snapshot of
the frames map's indices in DESCENDING INDEX ORDER (this definition follows
the spec's words; compare with `gcSweep`, which follows the source). -/
def gcSweepDescending (s : DecState) (maxBytes : Nat) : DecState × List Nat :=
  if maxBytes ≤ s.entireCacheSize then gcLoop maxBytes s (sortDesc (framesKeys s))
  else (s, [])

/-- Concrete sweep state for the C5 counterexample: three resolved,
`None`-state frames whose handles hold 10 bytes each; the map's internal
iteration order is `9, 3, 5` (an order a `HashMap` may produce — its
iteration order is unspecified); the cache counter 25 exceeds the maximum
20, and one eviction suffices. -/
def s5c : DecState :=
  { frames := [(9, some (List.replicate 10 1)), (3, some (List.replicate 10 1)),
               (5, some (List.replicate 10 1))],
    frameStates := [], decodingFrames := [], runningDecodeTasks := 0,
    entireCacheSize := 25 }

/-- `fillRange buf start n` performs the `n` loop-body executions that write
pixels `start, start+1, …, start+n-1` (in this order), exactly as the
nested loops of `generate_empty_frame` do. -/
def fillRange (buf : List Nat) (start : Nat) : Nat → List Nat
  | 0 => buf
  | Nat.succ n => writePixel (fillRange buf start n) (((start + n) * 4) % U32)

/-- The operations that touch one `CachedDecoder`'s shared state in the
model: a `get_frame(i)` call (eager schedule) and one GC sweeper
iteration. -/
inductive DecOp where
  | getFrame (i : Nat)
  | gc (maxBytes : Nat)

/-- Apply one operation to the shared decoder state. -/
def applyDecOp (oracle : Oracle) (w h : Nat) (s : DecState) : DecOp → DecState
  | DecOp.getFrame i => (getFrameSeq oracle w h s i).state
  | DecOp.gc m => (gcSweep s m).1

/-- Apply a sequence of operations. -/
def runDecOps (oracle : Oracle) (w h : Nat) (s : DecState) (ops : List DecOp) : DecState :=
  ops.foldl (applyDecOp oracle w h) s

/-! ## C7: the `clear()` drain barrier

`Decoder::clear` (decoder.rs:47-75) swaps the registry map with an empty
one, polls every removed decoder's `running_decode_tasks` until all are
zero (the 50 ms sleep between polls is real time and is abstracted into the
step relation: the `finish` step is enabled exactly when one poll pass
observes every counter at zero), and stores 0 into `ENTIRE_CACHE_SIZE` as
its final action.  Background window-decode tasks are modelled abstractly:
each task belongs to a decoder, takes some number of steps, may mutate the
shared cache counter on every non-final step, and decrements its decoder's
run counter as its final step — exactly the shape of the spawned task
(decoder.rs:204-243), whose `fetch_sub` is its last statement.  The model
covers the tasks already started when `clear` begins; `cached_decoder`
registrations are outside the claim. -/

inductive ClearPhase where
  | notStarted
  | swapped (snapshot : List Nat)
  | done
deriving DecidableEq

/-- Global state seen by `clear` and the in-flight decode tasks.  A task is
`(decoder id, remaining steps)`; a task with 0 remaining steps has
finished (its counter decrement included). -/
structure ClearSys where
  registry : List Nat
  counters : Nat → Nat
  cache : Nat
  tasks : List (Nat × Nat)
  phase : ClearPhase

/-- Number of unfinished tasks of decoder `d` — the value
`running_decode_tasks` holds (incremented at spawn, decremented as the
task's final step). -/
def taskCount (tasks : List (Nat × Nat)) (d : Nat) : Nat :=
  (tasks.filter (fun t => t.1 == d && t.2 != 0)).length

/-- Interleaved small steps of the drain: a non-final task step (which may
mutate the shared cache arbitrarily), a final task step (the counter
decrement), `clear`'s atomic registry swap, and `clear`'s exit from the
poll loop followed by the `ENTIRE_CACHE_SIZE.store(0)` — enabled only when
every snapshotted decoder's counter reads zero. -/
inductive ClearStep : ClearSys → ClearSys → Prop where
  | taskWork (s : ClearSys) (k d n c' : Nat) (h : s.tasks.get? k = some (d, n + 2)) :
      ClearStep s { s with tasks := s.tasks.set k (d, n + 1), cache := c' }
  | taskDone (s : ClearSys) (k d : Nat) (h : s.tasks.get? k = some (d, 1)) :
      ClearStep s { s with tasks := s.tasks.set k (d, 0),
                           counters := fun x => if x = d then s.counters x - 1
                                                else s.counters x }
  | swap (s : ClearSys) (h : s.phase = ClearPhase.notStarted) :
      ClearStep s { s with registry := [], phase := ClearPhase.swapped s.registry }
  | finish (s : ClearSys) (snap : List Nat) (h : s.phase = ClearPhase.swapped snap)
      (hzero : ∀ d ∈ snap, s.counters d = 0) :
      ClearStep s { s with cache := 0, phase := ClearPhase.done }

/-- Inductive invariant: counters agree with the number of unfinished
tasks; every unfinished task's decoder is registered (resp. snapshotted
after the swap); once done, the registry is empty, the cache counter is
zero and every task has finished. -/
def ClearInv (s : ClearSys) : Prop :=
  (∀ d, s.counters d = taskCount s.tasks d) ∧
  (match s.phase with
   | ClearPhase.notStarted => ∀ t ∈ s.tasks, t.2 ≠ 0 → t.1 ∈ s.registry
   | ClearPhase.swapped snap => s.registry = [] ∧ ∀ t ∈ s.tasks, t.2 ≠ 0 → t.1 ∈ snap
   | ClearPhase.done => s.registry = [] ∧ s.cache = 0
       ∧ s.tasks.all (fun t => t.2 == 0) = true)

/-- Initial state of the C7 witness: one registered decoder (id 0), one
in-flight two-step decode task, counter 1, cache 5. -/
def clearSys0 : ClearSys :=
  { registry := [0], counters := fun d => if d = 0 then 1 else 0, cache := 5,
    tasks := [(0, 2)], phase := ClearPhase.notStarted }

/-- After the task's non-final step (mutating the cache to 77). -/
def clearSys1 : ClearSys :=
  { clearSys0 with tasks := clearSys0.tasks.set 0 (0, 1), cache := 77 }

/-- After the task's final step (the counter decrement). -/
def clearSys2 : ClearSys :=
  { clearSys1 with
      tasks := clearSys1.tasks.set 0 (0, 0),
      counters := fun x => if x = 0 then clearSys1.counters x - 1
                           else clearSys1.counters x }

/-- After `clear`'s registry swap. -/
def clearSys3 : ClearSys :=
  { clearSys2 with registry := [], phase := ClearPhase.swapped clearSys2.registry }

/-- After `clear` observed the counter at zero and stored 0. -/
def clearSys4 : ClearSys :=
  { clearSys3 with cache := 0, phase := ClearPhase.done }

/-! ## Theorems -/

namespace SharedManualFuture
theorem complete_of_resolved (s : SharedManualFuture α) (v w : α) (h : s.value = some v) :
    s.complete w = (s, []) := by
  simp [complete, h]

theorem value_applyOp (s : SharedManualFuture α) (v : α) (h : s.value = some v) :
    ∀ op, (applyOp s op).value = some v := by
  intro op
  cases op with
  | get => simp [applyOp, get, h]
  | complete w => simp [applyOp, complete, h]

theorem value_runOps (v : α) (ops : List (Op α)) :
    ∀ s : SharedManualFuture α, s.value = some v → (runOps s ops).value = some v := by
  induction ops with
  | nil => intro s h; exact h
  | cons op rest ih =>
      intro s h
      exact ih (applyOp s op) (value_applyOp s v h op)

end SharedManualFuture
/-- C6: For every `SharedManualFuture` handle (all of whose clones share the
same state, modelled here as the shared state itself): a first `complete v`
on an unresolved handle resolves it with `v`; after any further sequence of
`get`/`complete` operations the handle is still resolved with the same `v`,
`get_now`, `get` and `is_resolved` all observe `v` immediately, and any later
`complete w` is a no-op (state unchanged, nobody notified) — so a handle is
resolved exactly once over its lifetime. -/
theorem sharedManualFuture_resolved_once {α : Type} (s : SharedManualFuture α) (v : α)
    (h : s.value = Option.none) :
    ((s.complete v).1.value = some v) ∧
    (∀ ops : List (SharedManualFuture.Op α),
      let s' := SharedManualFuture.runOps (s.complete v).1 ops
      s'.value = some v ∧
      s'.get_now = some v ∧
      s'.is_completed = true ∧
      (s'.get).2 = some v ∧
      (∀ w : α, s'.complete w = (s', []))) := by
  have hres : (s.complete v).1.value = some v := by
    simp [SharedManualFuture.complete, h]
  refine ⟨hres, ?_⟩
  intro ops
  have hv := SharedManualFuture.value_runOps v ops (s.complete v).1 hres
  refine ⟨hv, ?_, ?_, ?_, ?_⟩
  · simpa [SharedManualFuture.get_now] using hv
  · simp [SharedManualFuture.is_completed, hv]
  · simp [SharedManualFuture.get, hv]
  · intro w
    exact SharedManualFuture.complete_of_resolved _ v w hv

theorem lookupKey_setKey {α : Type} (l : List (Nat × α)) (k k' : Nat) (v : α) :
    lookupKey (setKey l k v) k' = if k = k' then some v else lookupKey l k' := by
  induction l with
  | nil =>
      by_cases h : k = k' <;> simp [setKey, lookupKey, h]
  | cons p t ih =>
      obtain ⟨a, b⟩ := p
      by_cases ha : a = k
      · subst ha
        by_cases h : a = k' <;> simp [setKey, lookupKey, h]
      · by_cases h : a = k'
        · subst h
          have : ¬ k = a := fun hk => ha hk.symm
          simp [setKey, lookupKey, ha, this]
        · simp [setKey, lookupKey, ha, h, ih]

theorem lookupKey_setKey_self {α : Type} (l : List (Nat × α)) (k : Nat) (v : α) :
    lookupKey (setKey l k v) k = some v := by
  simp [lookupKey_setKey]

theorem lookupKey_setKey_ne {α : Type} (l : List (Nat × α)) (k k' : Nat) (v : α)
    (h : k ≠ k') : lookupKey (setKey l k v) k' = lookupKey l k' := by
  simp [lookupKey_setKey, h]

theorem setKey_of_lookup {α : Type} (l : List (Nat × α)) (k : Nat) (v : α)
    (h : lookupKey l k = some v) : setKey l k v = l := by
  induction l with
  | nil => simp [lookupKey] at h
  | cons p t ih =>
      obtain ⟨a, b⟩ := p
      by_cases ha : a = k
      · subst ha
        simp [lookupKey] at h
        simp [setKey, h]
      · simp [lookupKey, ha] at h
        simp [setKey, ha, ih h]

theorem lookupKey_removeKey {α : Type} (l : List (Nat × α)) (k k' : Nat) :
    lookupKey (removeKey l k) k' = if k = k' then Option.none else lookupKey l k' := by
  induction l with
  | nil => by_cases h : k = k' <;> simp [removeKey, lookupKey, h]
  | cons p t ih =>
      obtain ⟨a, b⟩ := p
      by_cases ha : a = k
      · subst ha
        by_cases h : a = k'
        · subst h
          simpa [removeKey] using ih
        · simp [removeKey, lookupKey, h, ih]
      · by_cases h : a = k'
        · subst h
          have : ¬ k = a := fun hk => ha hk.symm
          simp [removeKey, lookupKey, ha, this]
        · simp [removeKey, lookupKey, ha, h, ih]

theorem lookupKey_append {α : Type} (l l' : List (Nat × α)) (k : Nat) :
    lookupKey (l ++ l') k =
      match lookupKey l k with
      | some v => some v
      | Option.none => lookupKey l' k := by
  induction l with
  | nil => simp [lookupKey]
  | cons p t ih =>
      obtain ⟨a, b⟩ := p
      by_cases h : a = k <;> simp [lookupKey, h, ih]

/-- Witness for C6 at a concrete handle: a fresh handle with two pending
completers, resolved with `3`, then hit with a `get` and a second
`complete 7`; every observation still yields `3`. -/
theorem sharedManualFuture_resolved_once_witness :
    (({ value := Option.none, completers := 2 } : SharedManualFuture Nat).value
        = Option.none) ∧
    (SharedManualFuture.runOps
        (({ value := Option.none, completers := 2 } : SharedManualFuture Nat).complete 3).1
        [SharedManualFuture.Op.get, SharedManualFuture.Op.complete 7]).value = some 3 := by
  refine ⟨rfl, ?_⟩
  exact ((sharedManualFuture_resolved_once
      ({ value := Option.none, completers := 2 } : SharedManualFuture Nat) 3 rfl).2
      [SharedManualFuture.Op.get, SharedManualFuture.Op.complete 7]).1

/-! ## Small bridging lemmas -/

theorem lookup_frameStates_of_ne_none (s : DecState) (i : Nat)
    (h : stateOf s i ≠ FrameState.None) :
    lookupKey s.frameStates i = some (stateOf s i) := by
  unfold stateOf at h ⊢
  cases hl : lookupKey s.frameStates i with
  | none => rw [hl] at h; simp [Option.getD] at h
  | some v => simp [hl]

/-- Every code path of the single-frame re-decode begins with the hardware
attempt on the window whose exclusive end is `target + 2`
(hw_decoder.rs:53-54 passes `target_frame + 1` as the *inclusive* end, and
hw_decoder.rs:11 adds one more). -/
theorem extract_frame_hw_rgba_calls_head (oracle : Oracle) (i w h : Nat) :
    (extract_frame_hw_rgba oracle i w h).2.head? = some ⟨true, i, i + 2⟩ := by
  unfold extract_frame_hw_rgba extract_frame_window_hw_rgba
  cases h1 : oracle true i (i + 1 + 1) with
  | ok frames =>
      by_cases hf : frames = [] <;> simp [h1, hf, AdapterCall.mk.injEq]
  | error e =>
      cases h2 : oracle false i (i + 1 + 1) with
      | ok frames =>
          by_cases hf : frames = [] <;> simp [h1, h2, hf, AdapterCall.mk.injEq]
      | error e' => simp [h1, h2, AdapterCall.mk.injEq]

theorem extract_frame_hw_rgba_calls_ne_nil (oracle : Oracle) (i w h : Nat) :
    (extract_frame_hw_rgba oracle i w h).2 ≠ [] := by
  intro hnil
  have := extract_frame_hw_rgba_calls_head oracle i w h
  rw [hnil] at this
  simp at this

theorem phaseA_skip (s : DecState) (i : Nat) (h : s.decodingFrames.contains i = true) :
    phaseA s i = (s, Option.none) := by
  have h' : i ∈ s.decodingFrames := by simpa using h
  simp [phaseA, h']

/-- Unfolding of `getFrameSeq` on the synchronous re-decode branch: `i` is
already claimed (Phase A schedules nothing) and its prior state is `Wait`
or `Drop`. -/
theorem getFrameSeq_sync (oracle : Oracle) (w h : Nat) (s : DecState) (i : Nat)
    (hclaim : s.decodingFrames.contains i = true)
    (hstate : stateOf s i = FrameState.Wait ∨ stateOf s i = FrameState.Drop) :
    getFrameSeq oracle w h s i =
      match extract_frame_hw_rgba oracle i w h with
      | (Except.ok payload, calls) => ⟨(phaseB s i).1, some payload, calls, false⟩
      | (Except.error _, calls) => ⟨(phaseB s i).1, Option.none, calls, false⟩ := by
  have hA : phaseA s i = (s, Option.none) := phaseA_skip s i hclaim
  have hB2 : (phaseB s i).2 = FrameState.Wait ∨ (phaseB s i).2 = FrameState.Drop := hstate
  simp only [getFrameSeq, hA]
  rw [if_pos hB2]
  cases hex : extract_frame_hw_rgba oracle i w h with
  | mk res calls => cases res <;> simp

/-- C1 (code bug): at a window decode whose adapter call errors, the
background task does NOT decrement `running_decode_tasks` and the error is
not handled: the `Err` arm is `todo!()` (decoder.rs:236), which panics the
task before the decrement at decoder.rs:239-242, leaving the run counter
stuck at 1 and the shared state otherwise untouched; and in the Phase B
synchronous re-decode the same `todo!()` (decoder.rs:273) makes
`get_frame` itself panic instead of returning bytes (`bytes = none` in the
model).  This contradicts the claim (counter decremented, every `get_frame`
still returns bytes), which matches the spec's stated intent for an
unfinished error branch (spec §7, acknowledged unfinished in §9). -/
theorem decode_error_todo_panics :
    (runDecodeTask errWindowState (Except.error "decode failed")
        = (errWindowState, true)) ∧
    errWindowState.runningDecodeTasks = 1 ∧
    (runDecodeTask errWindowState (Except.error "decode failed")).1.runningDecodeTasks = 1 ∧
    (getFrameSeq failOracle 1 1 errWaitState 0).bytes = Option.none := by
  refine ⟨rfl, rfl, rfl, ?_⟩
  decide

/-- C10: the Phase D capacity decrement is a wrapping subtraction modulo
`2^64`: delivering (for a non-zero index) a payload longer than the current
counter value wraps the counter to `current + 2^64 - len` — at least
`2^64 - len`, never zero — instead of clamping at zero. -/
theorem phaseD_wrapping_underflow (s : DecState) (i : Nat) (frame : Bytes)
    (hi : i ≠ 0) (hlt : s.entireCacheSize < frame.length) (hlen : frame.length < U64) :
    (phaseD s i frame).entireCacheSize = s.entireCacheSize + (U64 - frame.length) ∧
    U64 - frame.length ≤ (phaseD s i frame).entireCacheSize ∧
    (phaseD s i frame).entireCacheSize ≠ 0 := by
  have hmod : frame.length % U64 = frame.length := Nat.mod_eq_of_lt hlen
  have hval : (phaseD s i frame).entireCacheSize
      = (s.entireCacheSize + (U64 - frame.length)) % U64 := by
    simp [phaseD, hi, wrapSub, hmod]
  have hlt2 : s.entireCacheSize + (U64 - frame.length) < U64 := by omega
  rw [hval, Nat.mod_eq_of_lt hlt2]
  refine ⟨rfl, by omega, by omega⟩

/-- Witness for C10: a counter at 0 hit with a 100-byte delivery for index 1
wraps to `2^64 - 100`. -/
theorem phaseD_wrapping_underflow_witness :
    ((1 : Nat) ≠ 0 ∧
      ({ frames := [], frameStates := [], decodingFrames := [],
         runningDecodeTasks := 0, entireCacheSize := 0 } : DecState).entireCacheSize
        < (List.replicate 100 7 : List Nat).length ∧
      (List.replicate 100 7 : List Nat).length < U64) ∧
    (phaseD { frames := [], frameStates := [], decodingFrames := [],
              runningDecodeTasks := 0, entireCacheSize := 0 } 1
        (List.replicate 100 7)).entireCacheSize
      = 0 + (U64 - (List.replicate 100 7 : List Nat).length) := by
  refine ⟨⟨by decide, by simp, by simp [U64]⟩, ?_⟩
  exact (phaseD_wrapping_underflow
    { frames := [], frameStates := [], decodingFrames := [],
      runningDecodeTasks := 0, entireCacheSize := 0 } 1
    (List.replicate 100 7) (by decide) (by simp) (by simp [U64])).1

/-! ## C4: the Phase B synchronous re-decode -/

/-- C4 (amended): a `get_frame(i)` call whose prior state is `Wait` or
`Drop` (such an `i` is always already claimed, hence the `contains`
hypothesis) performs a synchronous re-decode by calling the decoder adapter
for the TWO-frame window `[i, i+1]` (the hardware attempt's exclusive end is
`i + 2`) and returns a fresh buffer with the FIRST returned frame's payload,
without reading or writing the frames map and without changing
`ENTIRE_CACHE_SIZE` — the only state change is re-writing `frame_states[i]`
to `Wait`, which it already holds or overwrites from `Drop`. -/
theorem syncRedecode_two_frame_window (oracle : Oracle) (w h : Nat) (s : DecState)
    (i : Nat) (b : Bytes) (calls : List AdapterCall)
    (hstate : stateOf s i = FrameState.Wait ∨ stateOf s i = FrameState.Drop)
    (hclaim : s.decodingFrames.contains i = true)
    (hex : extract_frame_hw_rgba oracle i w h = (Except.ok b, calls)) :
    getFrameSeq oracle w h s i
      = ⟨{ s with frameStates := setKey s.frameStates i FrameState.Wait },
         some b, calls, false⟩ ∧
    (getFrameSeq oracle w h s i).state.frames = s.frames ∧
    (getFrameSeq oracle w h s i).state.entireCacheSize = s.entireCacheSize ∧
    (getFrameSeq oracle w h s i).calls.head? = some ⟨true, i, i + 2⟩ := by
  have hmain : getFrameSeq oracle w h s i
      = ⟨{ s with frameStates := setKey s.frameStates i FrameState.Wait },
         some b, calls, false⟩ := by
    rw [getFrameSeq_sync oracle w h s i hclaim hstate, hex]
    rfl
  refine ⟨hmain, by rw [hmain], by rw [hmain], ?_⟩
  rw [hmain]
  have := extract_frame_hw_rgba_calls_head oracle i w h
  rw [hex] at this
  exact this

/-- C4 counterexample to the claim as stated: the claim says the synchronous
re-decode calls the decoder adapter for the window `[i, i]`, whose hardware
invocation would have exclusive end `i + 1 = 6`; the code calls
`extract_frame_hw_rgba(path, 5, w, h)`, which requests the window with
INCLUSIVE end `5 + 1` (hw_decoder.rs:54), i.e. the single ffmpeg invocation
recorded has exclusive end `7`, covering frames 5 and 6 — not `[5, 5]`. -/
theorem syncRedecode_window_counterexample :
    (getFrameSeq o4 1 1 s4c 5).calls = [⟨true, 5, 7⟩] ∧
    (getFrameSeq o4 1 1 s4c 5).calls ≠ [⟨true, 5, 6⟩] := by
  refine ⟨?_, ?_⟩ <;> decide

/-- Witness for the amended C4 theorem at the same concrete input. -/
theorem syncRedecode_two_frame_window_witness :
    ((stateOf s4c 5 = FrameState.Wait ∨ stateOf s4c 5 = FrameState.Drop) ∧
      s4c.decodingFrames.contains 5 = true ∧
      extract_frame_hw_rgba o4 5 1 1 = (Except.ok ([1] : List Nat), [⟨true, 5, 7⟩])) ∧
    getFrameSeq o4 1 1 s4c 5
      = ⟨{ s4c with frameStates := setKey s4c.frameStates 5 FrameState.Wait },
         some ([1] : List Nat), [⟨true, 5, 7⟩], false⟩ := by
    refine ⟨⟨Or.inl (by decide), by decide, rfl⟩, ?_⟩
    exact (syncRedecode_two_frame_window o4 1 1 s4c 5 ([1] : List Nat) [⟨true, 5, 7⟩]
      (Or.inl (by decide)) (by decide) rfl).1

/-! ## C2: repeated `get_frame(0)` -/

/-- C2 (amended): Phase D retains the index-0 handle (it does not remove it
from the frames map and does not decrement `ENTIRE_CACHE_SIZE` — `phaseD`
is the identity at index 0); but a repeated `get_frame(0)` whose prior state
is `Wait` does NOT serve the retained handle's bytes: it takes the Phase B
synchronous re-decode branch, invokes the decoder adapter again (at least
one fresh ffmpeg call) and returns the freshly decoded payload, leaving the
whole decoder state unchanged. -/
theorem indexZero_retention_amended (oracle : Oracle) (w h : Nat) (s : DecState)
    (b : Bytes) (calls : List AdapterCall)
    (hstate : stateOf s 0 = FrameState.Wait)
    (hclaim : s.decodingFrames.contains 0 = true)
    (hex : extract_frame_hw_rgba oracle 0 w h = (Except.ok b, calls)) :
    (∀ (s' : DecState) (frame : Bytes), phaseD s' 0 frame = s') ∧
    getFrameSeq oracle w h s 0 = ⟨s, some b, calls, false⟩ ∧
    calls ≠ [] := by
  have hset : setKey s.frameStates 0 FrameState.Wait = s.frameStates := by
    apply setKey_of_lookup
    have := lookup_frameStates_of_ne_none s 0 (by rw [hstate]; intro hc; cases hc)
    rw [hstate] at this
    exact this
  refine ⟨fun s' frame => by simp [phaseD], ?_, ?_⟩
  · rw [getFrameSeq_sync oracle w h s 0 hclaim (Or.inl hstate), hex]
    simp [phaseB, hset]
  · intro hnil
    subst hnil
    exact extract_frame_hw_rgba_calls_ne_nil oracle 0 w h (by rw [hex])

set_option maxRecDepth 4096 in
/-- C2 counterexample to the claim as stated: starting from a fresh decoder,
`get_frame(0)` resolves and delivers `[7]` (the handle for 0 is retained and
no GC eviction occurred); the repeated `get_frame(0)` does NOT return the
identical bytes without re-decode — it triggers a fresh adapter call
(Phase B synchronous re-decode, since `frame_states[0]` is `Wait`) and
returns the freshly decoded `[9] ≠ [7]`. -/
theorem indexZero_retention_counterexample :
    (getFrameSeq o2 1 1 emptyDecState 0).bytes = some ([7] : List Nat) ∧
    handleValue (getFrameSeq o2 1 1 emptyDecState 0).state 0 = some ([7] : List Nat) ∧
    (getFrameSeq o2 1 1 (getFrameSeq o2 1 1 emptyDecState 0).state 0).bytes
        = some ([9] : List Nat) ∧
    (getFrameSeq o2 1 1 (getFrameSeq o2 1 1 emptyDecState 0).state 0).bytes
        ≠ (getFrameSeq o2 1 1 emptyDecState 0).bytes ∧
    (getFrameSeq o2 1 1 (getFrameSeq o2 1 1 emptyDecState 0).state 0).calls ≠ [] := by
  refine ⟨?_, ?_, ?_, ?_, ?_⟩ <;> decide

set_option maxRecDepth 4096 in
/-- Witness for the amended C2 theorem: the state reached after the first
`get_frame(0)` above satisfies its hypotheses, and the second call returns
the freshly decoded `[9]` while leaving the state unchanged. -/
theorem indexZero_retention_amended_witness :
    (stateOf (getFrameSeq o2 1 1 emptyDecState 0).state 0 = FrameState.Wait ∧
      (getFrameSeq o2 1 1 emptyDecState 0).state.decodingFrames.contains 0 = true) ∧
    getFrameSeq o2 1 1 (getFrameSeq o2 1 1 emptyDecState 0).state 0
      = ⟨(getFrameSeq o2 1 1 emptyDecState 0).state, some ([9] : List Nat),
         [⟨true, 0, 2⟩], false⟩ := by
  refine ⟨⟨by decide, by decide⟩, ?_⟩
  exact (indexZero_retention_amended o2 1 1 (getFrameSeq o2 1 1 emptyDecState 0).state
    ([9] : List Nat) [⟨true, 0, 2⟩] (by decide) (by decide) rfl).2.1

/-! ## C3: window claiming and publishing -/

theorem lastFrameLoop_all_false (dec : List Nat) :
    ∀ (n s l : Nat), (∀ k, k < n → dec.contains (s + k) = false) →
      lastFrameLoop dec s l n = if n = 0 then l else s + n - 1 := by
  intro n
  induction n with
  | zero => intro s l _; rfl
  | succ m ih =>
      intro s l hall
      have h0 : dec.contains s = false := by
        have := hall 0 (Nat.succ_pos m)
        simpa using this
      have h0' : s ∉ dec := by simpa using h0
      have step : lastFrameLoop dec s l (m + 1) = lastFrameLoop dec (s + 1) s m := by
        simp [lastFrameLoop, h0']
      rw [step, ih (s + 1) s (fun k hk => by
        have := hall (k + 1) (by omega)
        have harg : s + (k + 1) = s + 1 + k := by omega
        rwa [harg] at this)]
      cases m with
      | zero => simp
      | succ m' => simp; omega

theorem lastFrameLoop_first_hit (dec : List Nat) :
    ∀ (n s l m : Nat), m < n → dec.contains (s + m) = true →
      (∀ k, k < m → dec.contains (s + k) = false) →
      lastFrameLoop dec s l n = if m = 0 then l else s + m - 1 := by
  intro n
  induction n with
  | zero => intro s l m hm; omega
  | succ n' ih =>
      intro s l m hm hhit hbefore
      cases m with
      | zero =>
          have h0' : s ∈ dec := by
            have h0 : dec.contains s = true := by simpa using hhit
            simpa using h0
          simp [lastFrameLoop, h0']
      | succ m' =>
          have h0 : dec.contains s = false := by
            have := hbefore 0 (Nat.succ_pos m')
            simpa using this
          have h0' : s ∉ dec := by simpa using h0
          have step : lastFrameLoop dec s l (n' + 1) = lastFrameLoop dec (s + 1) s n' := by
            simp [lastFrameLoop, h0']
          rw [step, ih (s + 1) s m' (by omega)
            (by
              have harg : s + 1 + m' = s + (m' + 1) := by omega
              rwa [harg])
            (fun k hk => by
              have := hbefore (k + 1) (by omega)
              have harg : s + (k + 1) = s + 1 + k := by omega
              rwa [harg] at this)]
          cases m' with
          | zero => simp
          | succ m'' => simp; omega

theorem claimRange_mem (i last k : Nat) :
    k ∈ claimRange i last ↔ i ≤ k ∧ k ≤ last := by
  simp only [claimRange, List.mem_map, List.mem_range]
  constructor
  · rintro ⟨t, ht, rfl⟩; omega
  · rintro ⟨h1, h2⟩; exact ⟨k - i, by omega, by omega⟩

theorem contains_append_iff (l l' : List Nat) (k : Nat) :
    (l ++ l').contains k = true ↔ l.contains k = true ∨ l'.contains k = true := by
  simp

theorem phaseA_claims (s : DecState) (i : Nat)
    (h : s.decodingFrames.contains i = false) (hov : i + DECODE_CHUNK < U32) :
    ∃ j, i < j ∧ j ≤ i + DECODE_CHUNK
      ∧ (∀ k, i < k → k < j → s.decodingFrames.contains k = false)
      ∧ (j < i + DECODE_CHUNK → s.decodingFrames.contains j = true)
      ∧ (phaseA s i).2 = some (i, j - 1)
      ∧ (phaseA s i).1 = { s with
            decodingFrames := s.decodingFrames ++ claimRange i (j - 1),
            runningDecodeTasks := s.runningDecodeTasks + 1 }
      ∧ (∀ k, (phaseA s i).1.decodingFrames.contains k = true
            ↔ (s.decodingFrames.contains k = true ∨ (i ≤ k ∧ k < j))) := by
  have hchunk : 0 < DECODE_CHUNK := by decide
  have h' : ¬ i ∈ s.decodingFrames := by simpa using h
  have hfuel : (i + DECODE_CHUNK) % U32 - i = DECODE_CHUNK := by
    rw [Nat.mod_eq_of_lt hov]; omega
  have hA : phaseA s i
      = ({ s with
            decodingFrames := s.decodingFrames
              ++ claimRange i (lastFrameLoop s.decodingFrames i i DECODE_CHUNK),
            runningDecodeTasks := s.runningDecodeTasks + 1 },
         some (i, lastFrameLoop s.decodingFrames i i DECODE_CHUNK)) := by
    simp only [phaseA, hfuel]
    rw [if_neg (show ¬ s.decodingFrames.contains i = true by simp [h'])]
  by_cases hex : ∃ m, m < DECODE_CHUNK ∧ s.decodingFrames.contains (i + m) = true
  · have hP := Nat.find_spec hex
    have hmin : ∀ k, k < Nat.find hex →
        ¬ (k < DECODE_CHUNK ∧ s.decodingFrames.contains (i + k) = true) :=
      fun k hk => Nat.find_min hex hk
    set m0 := Nat.find hex with hm0
    have hm0ne : m0 ≠ 0 := by
      intro h0
      rw [h0] at hP
      simp at hP
      exact h' hP.2
    have hbefore : ∀ k, k < m0 → s.decodingFrames.contains (i + k) = false := by
      intro k hk
      have := hmin k hk
      have hklt : k < DECODE_CHUNK := by omega
      rcases Bool.eq_false_or_eq_true (s.decodingFrames.contains (i + k)) with ht | hf
      · exact absurd ⟨hklt, ht⟩ this
      · exact hf
    have hlast : lastFrameLoop s.decodingFrames i i DECODE_CHUNK = i + m0 - 1 := by
      rw [lastFrameLoop_first_hit s.decodingFrames DECODE_CHUNK i i m0 hP.1 hP.2 hbefore]
      rw [if_neg hm0ne]
    refine ⟨i + m0, by omega, by omega, ?_, ?_, ?_, ?_, ?_⟩
    · intro k hk1 hk2
      have := hbefore (k - i) (by omega)
      have harg : i + (k - i) = k := by omega
      rwa [harg] at this
    · intro _
      exact hP.2
    · rw [hA]; simp [hlast]
    · rw [hA]; simp [hlast]
    · intro k
      rw [hA]
      simp only [contains_append_iff]
      rw [hlast]
      constructor
      · rintro (hk | hk)
        · exact Or.inl hk
        · right
          have : k ∈ claimRange i (i + m0 - 1) := by simpa using hk
          have := (claimRange_mem i (i + m0 - 1) k).1 this
          omega
      · rintro (hk | hk)
        · exact Or.inl hk
        · right
          have : k ∈ claimRange i (i + m0 - 1) :=
            (claimRange_mem i (i + m0 - 1) k).2 (by omega)
          simpa using this
  · push_neg at hex
    have hall : ∀ k, k < DECODE_CHUNK → s.decodingFrames.contains (i + k) = false := by
      intro k hk
      rcases Bool.eq_false_or_eq_true (s.decodingFrames.contains (i + k)) with ht | hf
      · exact absurd ht (hex k hk)
      · exact hf
    have hlast : lastFrameLoop s.decodingFrames i i DECODE_CHUNK = i + DECODE_CHUNK - 1 := by
      rw [lastFrameLoop_all_false s.decodingFrames DECODE_CHUNK i i hall]
      rw [if_neg (by omega)]
    refine ⟨i + DECODE_CHUNK, by omega, by omega, ?_, ?_, ?_, ?_, ?_⟩
    · intro k hk1 hk2
      have := hall (k - i) (by omega)
      have harg : i + (k - i) = k := by omega
      rwa [harg] at this
    · intro hcon; omega
    · rw [hA]; simp [hlast]
    · rw [hA]; simp [hlast]
    · intro k
      rw [hA]
      simp only [contains_append_iff]
      rw [hlast]
      constructor
      · rintro (hk | hk)
        · exact Or.inl hk
        · right
          have : k ∈ claimRange i (i + DECODE_CHUNK - 1) := by simpa using hk
          have := (claimRange_mem i (i + DECODE_CHUNK - 1) k).1 this
          omega
      · rintro (hk | hk)
        · exact Or.inl hk
        · right
          have : k ∈ claimRange i (i + DECODE_CHUNK - 1) :=
            (claimRange_mem i (i + DECODE_CHUNK - 1) k).2 (by omega)
          simpa using this

theorem entryOrInsert_preserve (l : List (Nat × Option Bytes)) (k k' : Nat) (v : Option Bytes)
    (h : lookupKey l k' = some v) : lookupKey (entryOrInsert l k) k' = some v := by
  unfold entryOrInsert
  cases hl : lookupKey l k with
  | some _ => exact h
  | none =>
      rw [lookupKey_append, h]

theorem entryOrInsert_absent (l : List (Nat × Option Bytes)) (k : Nat)
    (h : lookupKey l k = Option.none) :
    lookupKey (entryOrInsert l k) k = some Option.none := by
  unfold entryOrInsert
  rw [h, lookupKey_append, h]
  simp [lookupKey]

theorem entryOrInsert_other (l : List (Nat × Option Bytes)) (k k' : Nat) (h : k ≠ k') :
    lookupKey (entryOrInsert l k) k' = lookupKey l k' := by
  unfold entryOrInsert
  cases hl : lookupKey l k with
  | some _ => rfl
  | none =>
      rw [lookupKey_append]
      cases hl' : lookupKey l k' with
      | some _ => rfl
      | none => simp [lookupKey, h]

theorem foldl_entryOrInsert_preserve (r : List (Nat × Bytes)) :
    ∀ (l : List (Nat × Option Bytes)) (k : Nat) (v : Option Bytes),
      lookupKey l k = some v →
      lookupKey (r.foldl (fun fs p => entryOrInsert fs p.1) l) k = some v := by
  induction r with
  | nil => intro l k v h; exact h
  | cons p rest ih =>
      intro l k v h
      exact ih (entryOrInsert l p.1) k v (entryOrInsert_preserve l p.1 k v h)

theorem foldl_entryOrInsert_covers (r : List (Nat × Bytes)) :
    ∀ (l : List (Nat × Option Bytes)) (k : Nat),
      k ∈ r.map Prod.fst → lookupKey l k = Option.none →
      lookupKey (r.foldl (fun fs p => entryOrInsert fs p.1) l) k = some Option.none := by
  induction r with
  | nil => intro l k hk; simp at hk
  | cons p rest ih =>
      intro l k hk h
      by_cases hpk : p.1 = k
      · subst hpk
        exact foldl_entryOrInsert_preserve rest (entryOrInsert l p.1) p.1 Option.none
          (entryOrInsert_absent l p.1 h)
      · have hk' : k ∈ rest.map Prod.fst := by
          simp at hk
          rcases hk with hk | hk
          · exact absurd hk.symm (by simpa using hpk)
          · simpa using hk
        exact ih (entryOrInsert l p.1) k hk'
          (by rw [entryOrInsert_other l p.1 k hpk]; exact h)

theorem completeHandle_self (l : List (Nat × Option Bytes)) (k : Nat) (b : Bytes)
    (h : lookupKey l k = some Option.none) :
    lookupKey (completeHandle l k b) k = some (some b) := by
  unfold completeHandle
  rw [h]
  exact lookupKey_setKey_self l k (some b)

theorem completeHandle_other (l : List (Nat × Option Bytes)) (k k' : Nat) (b : Bytes)
    (h : k ≠ k') : lookupKey (completeHandle l k b) k' = lookupKey l k' := by
  unfold completeHandle
  cases hl : lookupKey l k with
  | none => rfl
  | some v =>
      cases v with
      | none => exact lookupKey_setKey_ne l k k' (some b) h
      | some _ => rfl

theorem publishResults_eq_foldl (s : DecState) (r : List (Nat × Bytes)) :
    publishResults s r
      = r.foldl deliverStep
          { s with frames := r.foldl (fun fs p => entryOrInsert fs p.1) s.frames } := rfl

theorem foldl_deliverStep_untouched (r : List (Nat × Bytes)) :
    ∀ s0 : DecState,
      (r.foldl deliverStep s0).frameStates = s0.frameStates ∧
      (r.foldl deliverStep s0).decodingFrames = s0.decodingFrames ∧
      (r.foldl deliverStep s0).runningDecodeTasks = s0.runningDecodeTasks := by
  induction r with
  | nil => intro s0; exact ⟨rfl, rfl, rfl⟩
  | cons p rest ih => intro s0; exact ih (deliverStep s0 p)

theorem foldl_deliverStep_cache (r : List (Nat × Bytes)) :
    ∀ s0 : DecState, s0.entireCacheSize < U64 →
      (r.foldl deliverStep s0).entireCacheSize
        = (s0.entireCacheSize + (r.map (fun p => p.2.length)).sum) % U64 := by
  induction r with
  | nil =>
      intro s0 h
      simp [Nat.mod_eq_of_lt h]
  | cons p rest ih =>
      intro s0 h
      have hlt : (deliverStep s0 p).entireCacheSize < U64 := by
        simp only [deliverStep, wrapAdd]
        exact Nat.mod_lt _ (by decide)
      rw [List.foldl_cons, ih (deliverStep s0 p) hlt]
      simp only [deliverStep, wrapAdd, List.map_cons, List.sum_cons]
      rw [Nat.mod_add_mod]
      ring_nf

theorem foldl_deliverStep_frames_notin (r : List (Nat × Bytes)) :
    ∀ (s0 : DecState) (k : Nat), k ∉ r.map Prod.fst →
      lookupKey (r.foldl deliverStep s0).frames k = lookupKey s0.frames k := by
  induction r with
  | nil => intro s0 k _; rfl
  | cons p rest ih =>
      intro s0 k hk
      have hpk : p.1 ≠ k := by
        intro hc; exact hk (by simp [hc.symm])
      have hk' : k ∉ rest.map Prod.fst := by
        intro hc; exact hk (by simp [hc])
      rw [List.foldl_cons, ih (deliverStep s0 p) k hk']
      exact completeHandle_other s0.frames p.1 k p.2 hpk

theorem foldl_deliverStep_resolves (r : List (Nat × Bytes)) :
    ∀ s0 : DecState, (r.map Prod.fst).Nodup →
      (∀ p ∈ r, lookupKey s0.frames p.1 = some Option.none) →
      ∀ p ∈ r, lookupKey (r.foldl deliverStep s0).frames p.1 = some (some p.2) := by
  induction r with
  | nil => intro s0 _ _ p hp; simp at hp
  | cons q rest ih =>
      intro s0 hnd hall p hp
      have hnd' : (rest.map Prod.fst).Nodup := by
        simpa using hnd.of_cons
      rcases List.mem_cons.1 hp with hpq | hpr
      · subst hpq
        have hq1 : p.1 ∉ rest.map Prod.fst := by
          have := hnd
          simp only [List.map_cons, List.nodup_cons] at this
          exact this.1
        rw [List.foldl_cons, foldl_deliverStep_frames_notin rest (deliverStep s0 p) p.1 hq1]
        exact completeHandle_self s0.frames p.1 p.2 (hall p hp)
      · rw [List.foldl_cons]
        refine ih (deliverStep s0 q) hnd' ?_ p hpr
        intro p' hp'
        have hne : q.1 ≠ p'.1 := by
          intro hc
          have : q.1 ∈ rest.map Prod.fst := by
            rw [hc]; exact List.mem_map_of_mem Prod.fst hp'
          simp only [List.map_cons, List.nodup_cons] at hnd
          exact hnd.1 this
        simp only [deliverStep]
        rw [completeHandle_other s0.frames q.1 p'.1 q.2 hne]
        exact hall p' (List.mem_cons_of_mem q hp')

theorem handleValue_none_iff (s : DecState) (k : Nat) :
    handleValue s k = Option.none ↔
      lookupKey s.frames k = Option.none ∨ lookupKey s.frames k = some Option.none := by
  unfold handleValue
  cases h : lookupKey s.frames k with
  | none => simp
  | some v => cases v <;> simp

theorem handleValue_of_lookup (s : DecState) (k : Nat) (b : Bytes)
    (h : lookupKey s.frames k = some (some b)) : handleValue s k = some b := by
  unfold handleValue
  rw [h]

theorem runDecodeTask_ok (s : DecState) (r : List (Nat × Bytes))
    (hnd : (r.map Prod.fst).Nodup)
    (habs : ∀ p ∈ r, handleValue s p.1 = Option.none)
    (hcache : s.entireCacheSize < U64) :
    (runDecodeTask s (Except.ok r)).2 = false ∧
    (runDecodeTask s (Except.ok r)).1.runningDecodeTasks = s.runningDecodeTasks - 1 ∧
    (runDecodeTask s (Except.ok r)).1.entireCacheSize
        = (s.entireCacheSize + (r.map (fun p => p.2.length)).sum) % U64 ∧
    (runDecodeTask s (Except.ok r)).1.frameStates = s.frameStates ∧
    (runDecodeTask s (Except.ok r)).1.decodingFrames = s.decodingFrames ∧
    (∀ p ∈ r, handleValue (runDecodeTask s (Except.ok r)).1 p.1 = some p.2) := by
  have hstate : (runDecodeTask s (Except.ok r)).1
      = { publishResults s r with
            runningDecodeTasks := (publishResults s r).runningDecodeTasks - 1 } := rfl
  set s1 : DecState :=
    { s with frames := r.foldl (fun fs p => entryOrInsert fs p.1) s.frames } with hs1
  have hpub : publishResults s r = r.foldl deliverStep s1 := publishResults_eq_foldl s r
  have huntouched := foldl_deliverStep_untouched r s1
  have hready : ∀ p ∈ r, lookupKey s1.frames p.1 = some Option.none := by
    intro p hp
    have hmem : p.1 ∈ r.map Prod.fst := List.mem_map_of_mem Prod.fst hp
    rcases (handleValue_none_iff s p.1).1 (habs p hp) with hnone | hunres
    · exact foldl_entryOrInsert_covers r s.frames p.1 hmem hnone
    · exact foldl_entryOrInsert_preserve r s.frames p.1 Option.none hunres
  refine ⟨rfl, ?_, ?_, ?_, ?_, ?_⟩
  · rw [hstate, hpub]
    simp [huntouched.2.2, hs1]
  · rw [hstate]
    simp only [hpub]
    rw [foldl_deliverStep_cache r s1 (by simpa [hs1] using hcache)]
  · rw [hstate]
    simp only [hpub]
    rw [huntouched.1]
  · rw [hstate]
    simp only [hpub]
    rw [huntouched.2.1]
  · intro p hp
    rw [hstate]
    have := foldl_deliverStep_resolves r s1 hnd hready p hp
    simp only [hpub]
    exact handleValue_of_lookup _ p.1 p.2 this

theorem extract_window_calls_head (oracle : Oracle) (st la w h : Nat) :
    (extract_frame_window_hw_rgba oracle st la w h).2.head? = some ⟨true, st, la + 1⟩ := by
  unfold extract_frame_window_hw_rgba
  cases h1 : oracle true st (la + 1) with
  | ok frames => by_cases hf : frames = [] <;> simp [h1, hf]
  | error e =>
      cases h2 : oracle false st (la + 1) with
      | ok frames => by_cases hf : frames = [] <;> simp [h1, h2, hf]
      | error e' => simp [h1, h2]

theorem head?_append_of_ne_nil {α : Type} (l l' : List α) (h : l ≠ []) :
    (l ++ l').head? = l.head? := by
  cases l with
  | nil => exact absurd rfl h
  | cons a t => simp

theorem getFrameSeq_calls_head (oracle : Oracle) (w h : Nat) (s : DecState) (i st la : Nat)
    (hsched : (phaseA s i).2 = some (st, la)) :
    (getFrameSeq oracle w h s i).calls.head? = some ⟨true, st, la + 1⟩ := by
  have hhead := extract_window_calls_head oracle st la w h
  have hne : (extract_frame_window_hw_rgba oracle st la w h).2 ≠ [] := by
    intro hnil
    rw [hnil] at hhead
    cases hhead
  have hshape : ∃ rest, (getFrameSeq oracle w h s i).calls
      = (extract_frame_window_hw_rgba oracle st la w h).2 ++ rest := by
    simp only [getFrameSeq, hsched]
    split
    · split <;> exact ⟨_, rfl⟩
    · split
      · exact ⟨[], (List.append_nil _).symm⟩
      · split <;> exact ⟨[], (List.append_nil _).symm⟩
  obtain ⟨rest, hr⟩ := hshape
  rw [hr, head?_append_of_ne_nil _ _ hne]
  exact hhead

/-- C3: a `get_frame(i)` call with `i` already in `decoding_frames` schedules
nothing (Phase A is a no-op); otherwise it claims exactly the indices
`[i, j)` — `j` being the smallest already-claimed index in
`[i+1, i+120)`, or `i+120` if there is none — inserts them into
`decoding_frames`, increments `running_decode_tasks` by exactly 1 and spawns
a background task whose first decoder-adapter invocation is the hardware
window `[i, j-1]` (exclusive end `j`); on success the task publishes each
returned `(idx, bytes)` pair — create-or-fetch the handle for `idx`, add
`bytes.len()` to `ENTIRE_CACHE_SIZE` (totalling `Σ len mod 2^64`), resolve
the handle — and then decrements the run counter, leaving `frame_states`
and `decoding_frames` untouched.  (The no-overflow hypothesis
`i + 120 < 2^32` excludes `u32` wrap-around of the loop bound; the
publication part assumes distinct returned indices and unresolved-or-absent
prior handles, which is how the scheduled window finds them.) -/
theorem windowDecode_claim_and_publish :
    (∀ (s : DecState) (i : Nat), s.decodingFrames.contains i = true →
        phaseA s i = (s, Option.none)) ∧
    (∀ (s : DecState) (i : Nat), s.decodingFrames.contains i = false →
        i + DECODE_CHUNK < U32 →
        ∃ j, i < j ∧ j ≤ i + DECODE_CHUNK
          ∧ (∀ k, i < k → k < j → s.decodingFrames.contains k = false)
          ∧ (j < i + DECODE_CHUNK → s.decodingFrames.contains j = true)
          ∧ (phaseA s i).2 = some (i, j - 1)
          ∧ (phaseA s i).1 = { s with
                decodingFrames := s.decodingFrames ++ claimRange i (j - 1),
                runningDecodeTasks := s.runningDecodeTasks + 1 }
          ∧ (∀ k, (phaseA s i).1.decodingFrames.contains k = true
                ↔ (s.decodingFrames.contains k = true ∨ (i ≤ k ∧ k < j)))) ∧
    (∀ (s : DecState) (r : List (Nat × Bytes)),
        (r.map Prod.fst).Nodup →
        (∀ p ∈ r, handleValue s p.1 = Option.none) →
        s.entireCacheSize < U64 →
        (runDecodeTask s (Except.ok r)).2 = false ∧
        (runDecodeTask s (Except.ok r)).1.runningDecodeTasks = s.runningDecodeTasks - 1 ∧
        (runDecodeTask s (Except.ok r)).1.entireCacheSize
            = (s.entireCacheSize + (r.map (fun p => p.2.length)).sum) % U64 ∧
        (runDecodeTask s (Except.ok r)).1.frameStates = s.frameStates ∧
        (runDecodeTask s (Except.ok r)).1.decodingFrames = s.decodingFrames ∧
        (∀ p ∈ r, handleValue (runDecodeTask s (Except.ok r)).1 p.1 = some p.2)) ∧
    (∀ (oracle : Oracle) (w h : Nat) (s : DecState) (i st la : Nat),
        (phaseA s i).2 = some (st, la) →
        (getFrameSeq oracle w h s i).calls.head? = some ⟨true, st, la + 1⟩) :=
  ⟨phaseA_skip, phaseA_claims, runDecodeTask_ok, getFrameSeq_calls_head⟩

set_option maxRecDepth 4096 in
/-- Witness for C3 at concrete inputs: a cold `get_frame(0)` on a fresh
decoder claims `[0, 120)` and its first adapter call is the hardware window
with exclusive end 120; publishing `[(0, [7])]` resolves the handle for 0
and accounts one byte. -/
theorem windowDecode_claim_and_publish_witness :
    (emptyDecState.decodingFrames.contains 0 = false ∧
      0 + DECODE_CHUNK < U32 ∧
      (([(0, ([7] : List Nat))] : List (Nat × Bytes)).map Prod.fst).Nodup ∧
      (∀ p ∈ ([(0, ([7] : List Nat))] : List (Nat × Bytes)),
          handleValue emptyDecState p.1 = Option.none) ∧
      emptyDecState.entireCacheSize < U64 ∧
      (phaseA emptyDecState 0).2 = some (0, 119)) ∧
    (∃ j, 0 < j ∧ j ≤ 0 + DECODE_CHUNK
      ∧ (∀ k, 0 < k → k < j → emptyDecState.decodingFrames.contains k = false)
      ∧ (j < 0 + DECODE_CHUNK → emptyDecState.decodingFrames.contains j = true)
      ∧ (phaseA emptyDecState 0).2 = some (0, j - 1)
      ∧ (phaseA emptyDecState 0).1 = { emptyDecState with
            decodingFrames := emptyDecState.decodingFrames ++ claimRange 0 (j - 1),
            runningDecodeTasks := emptyDecState.runningDecodeTasks + 1 }
      ∧ (∀ k, (phaseA emptyDecState 0).1.decodingFrames.contains k = true
            ↔ (emptyDecState.decodingFrames.contains k = true ∨ (0 ≤ k ∧ k < j)))) ∧
    (∀ p ∈ ([(0, ([7] : List Nat))] : List (Nat × Bytes)),
        handleValue (runDecodeTask emptyDecState
          (Except.ok [(0, ([7] : List Nat))])).1 p.1 = some p.2) ∧
    (getFrameSeq o2 1 1 emptyDecState 0).calls.head? = some ⟨true, 0, 120⟩ := by
  refine ⟨⟨rfl, by decide, by decide, ?_, by decide, by decide⟩, ?_, ?_, ?_⟩
  · intro p hp; fin_cases hp; rfl
  · exact windowDecode_claim_and_publish.2.1 emptyDecState 0 rfl (by decide)
  · exact (windowDecode_claim_and_publish.2.2.1 emptyDecState [(0, ([7] : List Nat))]
      (by decide) (by intro p hp; fin_cases hp; rfl) (by decide)).2.2.2.2.2
  · exact windowDecode_claim_and_publish.2.2.2 o2 1 1 emptyDecState 0 0 119 (by decide)

/-! ## C5: the GC sweeper -/

theorem foldl_congr_mem {α β : Type} (l : List α) (f g : β → α → β) :
    ∀ c, (∀ x ∈ l, ∀ c', f c' x = g c' x) → l.foldl f c = l.foldl g c := by
  induction l with
  | nil => intro c _; rfl
  | cons x t ih =>
      intro c hfg
      rw [List.foldl_cons, List.foldl_cons, hfg x (List.mem_cons_self x t) c]
      exact ih (g c x) (fun y hy c' => hfg y (List.mem_cons_of_mem x hy) c')

theorem gcLoop_spec (maxB : Nat) :
    ∀ (visits : List Nat) (s : DecState), visits.Nodup →
      ((gcLoop maxB s visits).2.Sublist visits) ∧
      (∀ idx ∈ (gcLoop maxB s visits).2, eligible s idx) ∧
      (∀ idx ∈ (gcLoop maxB s visits).2,
        stateOf (gcLoop maxB s visits).1 idx = FrameState.Drop ∧
        lookupKey (gcLoop maxB s visits).1.frames idx = Option.none) ∧
      (∀ idx, idx ∉ (gcLoop maxB s visits).2 →
        stateOf (gcLoop maxB s visits).1 idx = stateOf s idx ∧
        lookupKey (gcLoop maxB s visits).1.frames idx = lookupKey s.frames idx) ∧
      ((gcLoop maxB s visits).1.entireCacheSize
        = (gcLoop maxB s visits).2.foldl (fun c idx => wrapSub c (payloadLen s idx))
            s.entireCacheSize) ∧
      ((∃ v ∈ visits, eligible s v ∧ v ∉ (gcLoop maxB s visits).2) →
        (gcLoop maxB s visits).1.entireCacheSize < maxB) ∧
      ((gcLoop maxB s visits).1.decodingFrames = s.decodingFrames ∧
       (gcLoop maxB s visits).1.runningDecodeTasks = s.runningDecodeTasks) := by
  intro visits
  induction visits with
  | nil =>
      intro s _
      refine ⟨List.Sublist.refl _, ?_, ?_, ?_, rfl, ?_, rfl, rfl⟩
      · intro idx h; cases h
      · intro idx h; cases h
      · intro idx _; exact ⟨rfl, rfl⟩
      · rintro ⟨v, hv, _⟩; cases hv
  | cons idx rest ih =>
      intro s hnd
      have hidxrest : idx ∉ rest := (List.nodup_cons.1 hnd).1
      have hndrest : rest.Nodup := (List.nodup_cons.1 hnd).2
      cases hlk : lookupKey s.frames idx with
      | none =>
          have hloop : gcLoop maxB s (idx :: rest) = gcLoop maxB s rest := by
            simp only [gcLoop, hlk]
          have hinelig : ¬ eligible s idx := by
            rintro ⟨⟨b, hb⟩, _⟩
            rw [hlk] at hb
            cases hb
          obtain ⟨h1, h2, h3, h4, h5, h6, h7⟩ := ih s hndrest
          rw [hloop]
          refine ⟨h1.trans (List.sublist_cons_self idx rest), h2, h3, h4, h5, ?_, h7⟩
          rintro ⟨v, hv, hel, hnev⟩
          rcases List.mem_cons.1 hv with rfl | hv'
          · exact absurd hel hinelig
          · exact h6 ⟨v, hv', hel, hnev⟩
      | some hdl =>
          cases hdl with
          | none =>
              have hloop : gcLoop maxB s (idx :: rest) = gcLoop maxB s rest := by
                simp only [gcLoop, hlk]
              have hinelig : ¬ eligible s idx := by
                rintro ⟨⟨b, hb⟩, _⟩
                rw [hlk] at hb
                cases hb
              obtain ⟨h1, h2, h3, h4, h5, h6, h7⟩ := ih s hndrest
              rw [hloop]
              refine ⟨h1.trans (List.sublist_cons_self idx rest), h2, h3, h4, h5, ?_, h7⟩
              rintro ⟨v, hv, hel, hnev⟩
              rcases List.mem_cons.1 hv with rfl | hv'
              · exact absurd hel hinelig
              · exact h6 ⟨v, hv', hel, hnev⟩
          | some payload =>
              by_cases hst : stateOf s idx = FrameState.None
              · -- eligible: evict
                set s' : DecState :=
                  { s with
                      frames := removeKey s.frames idx,
                      frameStates := setKey s.frameStates idx FrameState.Drop,
                      entireCacheSize := wrapSub s.entireCacheSize payload.length } with hs'
                have hloop : gcLoop maxB s (idx :: rest)
                    = if s'.entireCacheSize < maxB then (s', [idx])
                      else ((gcLoop maxB s' rest).1, idx :: (gcLoop maxB s' rest).2) := by
                  simp only [gcLoop, hlk, if_pos hst]
                have hplen : payloadLen s idx = payload.length := by
                  simp [payloadLen, handleValue, hlk]
                have helig : eligible s idx := ⟨⟨payload, hlk⟩, hst⟩
                -- transfers between s and s' away from idx
                have hstate' : ∀ x, x ≠ idx → stateOf s' x = stateOf s x := by
                  intro x hx
                  simp only [hs', stateOf]
                  rw [lookupKey_setKey_ne s.frameStates idx x FrameState.Drop
                    (fun hc => hx hc.symm)]
                have hframes' : ∀ x, x ≠ idx → lookupKey s'.frames x = lookupKey s.frames x := by
                  intro x hx
                  simp only [hs']
                  rw [lookupKey_removeKey]
                  rw [if_neg (fun hc => hx hc.symm)]
                have helig' : ∀ x, x ≠ idx → (eligible s' x ↔ eligible s x) := by
                  intro x hx
                  unfold eligible
                  rw [hstate' x hx, hframes' x hx]
                have hplen' : ∀ x, x ≠ idx → payloadLen s' x = payloadLen s x := by
                  intro x hx
                  unfold payloadLen handleValue
                  rw [hframes' x hx]
                have hselfstate : stateOf s' idx = FrameState.Drop := by
                  simp only [hs', stateOf]
                  rw [lookupKey_setKey_self]
                  rfl
                have hselfframes : lookupKey s'.frames idx = Option.none := by
                  simp only [hs']
                  rw [lookupKey_removeKey]
                  rw [if_pos rfl]
                by_cases hbrk : s'.entireCacheSize < maxB
                · rw [hloop, if_pos hbrk]
                  refine ⟨?_, ?_, ?_, ?_, ?_, ?_, rfl, rfl⟩
                  · exact (List.nil_sublist rest).cons₂ idx
                  · intro x hx
                    rcases List.mem_singleton.1 hx with rfl
                    exact helig
                  · intro x hx
                    rcases List.mem_singleton.1 hx with rfl
                    exact ⟨hselfstate, hselfframes⟩
                  · intro x hx
                    have hxne : x ≠ idx := by
                      intro hc; exact hx (hc ▸ List.mem_singleton_self idx)
                    exact ⟨hstate' x hxne, hframes' x hxne⟩
                  · simp [hs', hplen]
                  · intro _
                    exact hbrk
                · rw [hloop, if_neg hbrk]
                  obtain ⟨h1, h2, h3, h4, h5, h6, h7⟩ := ih s' hndrest
                  have hmem_ne : ∀ x ∈ (gcLoop maxB s' rest).2, x ≠ idx := by
                    intro x hx hc
                    subst hc
                    exact hidxrest (h1.subset hx)
                  refine ⟨h1.cons₂ idx, ?_, ?_, ?_, ?_, ?_, h7⟩
                  · intro x hx
                    rcases List.mem_cons.1 hx with rfl | hx'
                    · exact helig
                    · exact (helig' x (hmem_ne x hx')).1 (h2 x hx')
                  · intro x hx
                    rcases List.mem_cons.1 hx with rfl | hx'
                    · have hnotin : x ∉ (gcLoop maxB s' rest).2 := by
                        intro hc
                        exact (hmem_ne x hc) rfl
                      obtain ⟨hs4, hf4⟩ := h4 x hnotin
                      exact ⟨hs4.trans hselfstate, hf4.trans hselfframes⟩
                    · exact h3 x hx'
                  · intro x hx
                    have hxne : x ≠ idx := by
                      intro hc
                      exact hx (hc ▸ List.mem_cons_self idx (gcLoop maxB s' rest).2)
                    have hxnot : x ∉ (gcLoop maxB s' rest).2 := by
                      intro hc
                      exact hx (List.mem_cons_of_mem idx hc)
                    obtain ⟨hs4, hf4⟩ := h4 x hxnot
                    exact ⟨hs4.trans (hstate' x hxne), hf4.trans (hframes' x hxne)⟩
                  · rw [List.foldl_cons, h5]
                    have : s'.entireCacheSize = wrapSub s.entireCacheSize (payloadLen s idx) := by
                      simp [hs', hplen]
                    rw [← this]
                    exact foldl_congr_mem (gcLoop maxB s' rest).2 _ _ s'.entireCacheSize
                      (fun x hx c' => by rw [hplen' x (hmem_ne x hx)])
                  · rintro ⟨v, hv, hel, hnev⟩
                    rcases List.mem_cons.1 hv with rfl | hv'
                    · exact absurd (List.mem_cons_self v _) (fun hc => hnev hc)
                    · have hvne : v ≠ idx := by
                        intro hc; subst hc; exact hidxrest hv'
                      refine h6 ⟨v, hv', (helig' v hvne).2 hel, ?_⟩
                      intro hc
                      exact hnev (List.mem_cons_of_mem idx hc)
              · -- state not None: skip
                have hloop : gcLoop maxB s (idx :: rest) = gcLoop maxB s rest := by
                  simp only [gcLoop, hlk, if_neg hst]
                have hinelig : ¬ eligible s idx := fun hel => hst hel.2
                obtain ⟨h1, h2, h3, h4, h5, h6, h7⟩ := ih s hndrest
                rw [hloop]
                refine ⟨h1.trans (List.sublist_cons_self idx rest), h2, h3, h4, h5, ?_, h7⟩
                rintro ⟨v, hv, hel, hnev⟩
                rcases List.mem_cons.1 hv with rfl | hv'
                · exact absurd hel hinelig
                · exact h6 ⟨v, hv', hel, hnev⟩

/-- C5 counterexample to the claim as stated: the sweep iterates the
REVERSE of the map's internal iteration order (`.rev()` over the snapshot,
decoder.rs:150), which is not descending index order — no sort is
performed.  With internal order `9, 3, 5` the code visits `5, 3, 9`, evicts
index 5 and stops; a descending sweep would evict index 9. -/
theorem gcSweep_descending_counterexample :
    gcSweep s5c 20 ≠ gcSweepDescending s5c 20 ∧
    (gcSweep s5c 20).2 = [5] ∧
    (gcSweepDescending s5c 20).2 = [9] ∧
    stateOf (gcSweep s5c 20).1 5 = FrameState.Drop ∧
    stateOf (gcSweepDescending s5c 20).1 5 = FrameState.None := by
  refine ⟨?_, ?_, ?_, ?_, ?_⟩ <;> decide

/-- C5 (amended): when `current_bytes < max_bytes` the sweep iteration is a
no-op; otherwise the sweeper snapshots the frames map's indices and
iterates them in REVERSE OF THE MAP'S INTERNAL ITERATION ORDER (not sorted
— only when the map happens to iterate in ascending index order is the
sweep descending); it evicts exactly indices whose handle is resolved and
whose frame state is `None` — removing the handle, setting the state to
`Drop` and subtracting the payload length from `current_bytes` (a wrapping
`fetch_sub`) — leaves every other index untouched, and stops as soon as
`current_bytes` drops below `max_bytes` (so if some eligible index survived
the sweep, the final counter is below the maximum). -/
theorem gcSweep_amended (s : DecState) (maxB : Nat) (hnd : (framesKeys s).Nodup) :
    (s.entireCacheSize < maxB → gcSweep s maxB = (s, [])) ∧
    ((gcSweep s maxB).2.Sublist (framesKeys s).reverse) ∧
    (∀ idx ∈ (gcSweep s maxB).2, eligible s idx) ∧
    (∀ idx ∈ (gcSweep s maxB).2,
      stateOf (gcSweep s maxB).1 idx = FrameState.Drop ∧
      lookupKey (gcSweep s maxB).1.frames idx = Option.none) ∧
    (∀ idx, idx ∉ (gcSweep s maxB).2 →
      stateOf (gcSweep s maxB).1 idx = stateOf s idx ∧
      lookupKey (gcSweep s maxB).1.frames idx = lookupKey s.frames idx) ∧
    ((gcSweep s maxB).1.entireCacheSize
      = (gcSweep s maxB).2.foldl (fun c idx => wrapSub c (payloadLen s idx))
          s.entireCacheSize) ∧
    ((∃ v ∈ framesKeys s, eligible s v ∧ v ∉ (gcSweep s maxB).2) →
      (gcSweep s maxB).1.entireCacheSize < maxB) := by
  by_cases hguard : maxB ≤ s.entireCacheSize
  · have hloop : gcSweep s maxB = gcLoop maxB s (framesKeys s).reverse := by
      simp [gcSweep, hguard]
    obtain ⟨h1, h2, h3, h4, h5, h6, _⟩ :=
      gcLoop_spec maxB (framesKeys s).reverse s (List.nodup_reverse.2 hnd)
    rw [hloop]
    refine ⟨fun hlt => absurd hguard (by omega), h1, h2, h3, h4, h5, ?_⟩
    rintro ⟨v, hv, hel, hnev⟩
    exact h6 ⟨v, List.mem_reverse.2 hv, hel, hnev⟩
  · have hsweep : gcSweep s maxB = (s, []) := by
      simp [gcSweep, hguard]
    rw [hsweep]
    refine ⟨fun _ => rfl, List.nil_sublist _, ?_, ?_, ?_, rfl, ?_⟩
    · intro idx hidx; cases hidx
    · intro idx hidx; cases hidx
    · intro idx _; exact ⟨rfl, rfl⟩
    · intro _
      show s.entireCacheSize < maxB
      omega

/-- Witness for the amended C5 theorem at the concrete sweep state: the
code's sweep evicts index 5 (eligible, marked `Drop`, 10 bytes reclaimed)
and, having stopped early with index 9 still eligible, leaves the counter
at 15 < 20. -/
theorem gcSweep_amended_witness :
    (framesKeys s5c).Nodup ∧
    (∀ idx ∈ (gcSweep s5c 20).2, eligible s5c idx) ∧
    ((∃ v ∈ framesKeys s5c, eligible s5c v ∧ v ∉ (gcSweep s5c 20).2) →
      (gcSweep s5c 20).1.entireCacheSize < 20) := by
  refine ⟨by decide, ?_, ?_⟩
  · exact (gcSweep_amended s5c 20 (by decide)).2.2.1
  · exact (gcSweep_amended s5c 20 (by decide)).2.2.2.2.2.2

/-! ## C8: stall recovery and the empty frame -/

theorem getD_set_ne (l : List Nat) (i j a d : Nat) (h : i ≠ j) :
    (l.set i a).getD j d = l.getD j d := by
  simp [List.getD_eq_getElem?_getD, List.getElem?_set_ne h]

theorem getD_set_self (l : List Nat) (i a d : Nat) (h : i < l.length) :
    (l.set i a).getD i d = a := by
  simp [List.getD_eq_getElem?_getD, List.getElem?_set_eq_of_lt a h]

theorem writePixel_length (buf : List Nat) (idx : Nat) :
    (writePixel buf idx).length = buf.length := by
  simp [writePixel]

theorem fillRange_length (buf : List Nat) (start : Nat) :
    ∀ n, (fillRange buf start n).length = buf.length := by
  intro n
  induction n with
  | zero => rfl
  | succ n ih => simp [fillRange, writePixel_length, ih]

theorem rowFold_eq_fillRange (start : Nat) :
    ∀ (n : Nat) (buf : List Nat),
      (List.range n).foldl (fun b x => writePixel b (((start + x) * 4) % U32)) buf
        = fillRange buf start n := by
  intro n
  induction n with
  | zero => intro buf; rfl
  | succ n ih =>
      intro buf
      rw [List.range_succ, List.foldl_append, ih buf]
      rfl

theorem fillRange_compose (buf : List Nat) (m : Nat) :
    ∀ n, fillRange (fillRange buf 0 m) m n = fillRange buf 0 (m + n) := by
  intro n
  induction n with
  | zero => rfl
  | succ n ih =>
      show writePixel (fillRange (fillRange buf 0 m) m n) (((m + n) * 4) % U32)
          = fillRange buf 0 (m + (n + 1))
      rw [ih]
      have : m + (n + 1) = (m + n) + 1 := by omega
      rw [this]
      show writePixel (fillRange buf 0 (m + n)) (((m + n) * 4) % U32)
          = writePixel (fillRange buf 0 (m + n)) (((0 + (m + n)) * 4) % U32)
      rw [Nat.zero_add]

theorem generate_empty_frame_eq_fillRange (w h : Nat) :
    generate_empty_frame w h
      = fillRange (List.replicate ((w * h * 4) % U32) 0) 0 (h * w) := by
  unfold generate_empty_frame
  have hrow : ∀ (y : Nat) (buf : List Nat),
      (List.range w).foldl (fun b x => writePixel b (((y * w + x) * 4) % U32)) buf
        = fillRange buf (y * w) w := fun y buf => rowFold_eq_fillRange (y * w) w buf
  have houter : ∀ (n : Nat) (buf : List Nat),
      (List.range n).foldl
          (fun buf y => (List.range w).foldl
            (fun b x => writePixel b (((y * w + x) * 4) % U32)) buf) buf
        = fillRange buf 0 (n * w) := by
    intro n
    induction n with
    | zero => intro buf; rw [Nat.zero_mul]; rfl
    | succ n ih =>
        intro buf
        rw [List.range_succ, List.foldl_append, ih buf]
        simp only [List.foldl_cons, List.foldl_nil]
        rw [hrow n (fillRange buf 0 (n * w)), fillRange_compose buf (n * w) w]
        have : n * w + w = (n + 1) * w := by ring
        rw [this]
  exact houter h (List.replicate ((w * h * 4) % U32) 0)

theorem fillRange_content :
    ∀ (n : Nat) (buf : List Nat), 4 * n ≤ buf.length → 4 * n ≤ U32 →
      ∀ p, p < n →
        (fillRange buf 0 n).getD (4 * p) 0 = 255 ∧
        (fillRange buf 0 n).getD (4 * p + 1) 0 = 0 ∧
        (fillRange buf 0 n).getD (4 * p + 2) 0 = 0 ∧
        (fillRange buf 0 n).getD (4 * p + 3) 0 = 255 := by
  intro n
  induction n with
  | zero => intro buf _ _ p hp; omega
  | succ n ih =>
      intro buf hlen hU p hp
      have hmod : ((0 + n) * 4) % U32 = 4 * n := by
        rw [Nat.zero_add, Nat.mod_eq_of_lt (by omega)]
        ring
      have hstep : fillRange buf 0 (n + 1) = writePixel (fillRange buf 0 n) (4 * n) := by
        show writePixel (fillRange buf 0 n) (((0 + n) * 4) % U32)
            = writePixel (fillRange buf 0 n) (4 * n)
        rw [hmod]
      have hflen : (fillRange buf 0 n).length = buf.length := fillRange_length buf 0 n
      rcases Nat.lt_or_ge p n with hpn | hpn
      · -- earlier pixel: untouched by the four writes at 4n .. 4n+3
        obtain ⟨c0, c1, c2, c3⟩ := ih buf (by omega) (by omega) p hpn
        rw [hstep]
        unfold writePixel
        refine ⟨?_, ?_, ?_, ?_⟩ <;>
          · rw [getD_set_ne _ _ _ _ _ (by omega), getD_set_ne _ _ _ _ _ (by omega),
              getD_set_ne _ _ _ _ _ (by omega), getD_set_ne _ _ _ _ _ (by omega)]
            first
              | exact c0
              | exact c1
              | exact c2
              | exact c3
      · -- the pixel written by this step
        have hpn' : p = n := by omega
        subst hpn'
        rw [hstep]
        unfold writePixel
        have hl0 : 4 * p < (fillRange buf 0 p).length := by omega
        have hl1 : 4 * p + 1 < ((fillRange buf 0 p).set (4 * p) 255).length := by
          simp only [List.length_set]; omega
        have hl2 : 4 * p + 2
            < (((fillRange buf 0 p).set (4 * p) 255).set (4 * p + 1) 0).length := by
          simp only [List.length_set]; omega
        have hl3 : 4 * p + 3
            < ((((fillRange buf 0 p).set (4 * p) 255).set (4 * p + 1) 0).set
                (4 * p + 2) 0).length := by
          simp only [List.length_set]; omega
        refine ⟨?_, ?_, ?_, ?_⟩
        · rw [getD_set_ne _ _ _ _ _ (by omega), getD_set_ne _ _ _ _ _ (by omega),
            getD_set_ne _ _ _ _ _ (by omega), getD_set_self _ _ _ _ hl0]
        · rw [getD_set_ne _ _ _ _ _ (by omega), getD_set_ne _ _ _ _ _ (by omega),
            getD_set_self _ _ _ _ hl1]
        · rw [getD_set_ne _ _ _ _ _ (by omega), getD_set_self _ _ _ _ hl2]
        · rw [getD_set_self _ _ _ _ hl3]

theorem stallRecover_spec (s : DecState) (w h : Nat) :
    ∀ i : Nat,
      ((∀ k, k < i → handleValue s k = Option.none) →
          stallRecover s w h i = generate_empty_frame w h) ∧
      (∀ k b, k < i → handleValue s k = some b →
          (∀ m, k < m → m < i → handleValue s m = Option.none) →
          stallRecover s w h i = b) := by
  intro i
  induction i with
  | zero =>
      refine ⟨fun _ => rfl, ?_⟩
      intro k b hk
      omega
  | succ i ih =>
      constructor
      · intro hall
        have hi : handleValue s i = Option.none := hall i (Nat.lt_succ_self i)
        show (match handleValue s i with
              | some b => b
              | Option.none => stallRecover s w h i) = generate_empty_frame w h
        rw [hi]
        exact ih.1 (fun k hk => hall k (by omega))
      · intro k b hk hb habove
        show (match handleValue s i with
              | some b => b
              | Option.none => stallRecover s w h i) = b
        rcases Nat.lt_or_ge k i with hki | hki
        · have hi : handleValue s i = Option.none := habove i hki (Nat.lt_succ_self i)
          rw [hi]
          exact ih.2 k b hki hb (fun m hm1 hm2 => habove m hm1 (by omega))
        · have hkeq : k = i := by omega
          subst hkeq
          rw [hb]

/-- C8: a stall-recovery walk for `get_frame(i)` (timeout with
`running_decode_tasks == 0`) probes `i-1, i-2, …` in the frames map and
returns the payload of the first — i.e. largest — smaller index whose
handle has an immediately available value; if the walk passes index 0
without finding one it returns a freshly allocated empty frame of exactly
`width*height*4` bytes in which every pixel is the fully opaque solid color
`(255, 0, 0, 255)` (the walk and the generator are pure functions, so the
fallback frame is identical on every call).  The hypothesis
`w*h*4 < 2^32` excludes `u32` overflow of the buffer-size computation. -/
theorem stallRecovery_walk_and_empty_frame (s : DecState) (w h i : Nat)
    (hov : w * h * 4 < U32) :
    ((∀ k, k < i → handleValue s k = Option.none) →
        stallRecover s w h i = generate_empty_frame w h) ∧
    (∀ k b, k < i → handleValue s k = some b →
        (∀ m, k < m → m < i → handleValue s m = Option.none) →
        stallRecover s w h i = b) ∧
    (generate_empty_frame w h).length = w * h * 4 ∧
    (∀ p, p < w * h →
      (generate_empty_frame w h).getD (4 * p) 0 = 255 ∧
      (generate_empty_frame w h).getD (4 * p + 1) 0 = 0 ∧
      (generate_empty_frame w h).getD (4 * p + 2) 0 = 0 ∧
      (generate_empty_frame w h).getD (4 * p + 3) 0 = 255) := by
  have hmod : (w * h * 4) % U32 = w * h * 4 := Nat.mod_eq_of_lt hov
  have hfr := generate_empty_frame_eq_fillRange w h
  have hlen : (generate_empty_frame w h).length = w * h * 4 := by
    rw [hfr, fillRange_length, List.length_replicate, hmod]
  refine ⟨(stallRecover_spec s w h i).1, (stallRecover_spec s w h i).2, hlen, ?_⟩
  intro p hp
  have hcontent := fillRange_content (h * w) (List.replicate ((w * h * 4) % U32) 0)
    (by rw [List.length_replicate, hmod]; ring_nf; omega)
    (by have : 4 * (h * w) = w * h * 4 := by ring
        omega)
    p (by rw [Nat.mul_comm h w]; exact hp)
  rw [hfr]
  exact hcontent

/-- Witness for C8: at the concrete sweep state `s5c` (handles resolved at
indices 3, 5, 9), a stall-recovery walk from index 7 probes 6 (empty) then
returns index 5's payload; and the 2×2 empty frame is 16 bytes of
`(255,0,0,255)` pixels. -/
theorem stallRecovery_walk_and_empty_frame_witness :
    ((2 * 2 * 4 < U32) ∧
      (5 : Nat) < 7 ∧ handleValue s5c 5 = some (List.replicate 10 1) ∧
      (∀ m, 5 < m → m < 7 → handleValue s5c m = Option.none)) ∧
    stallRecover s5c 2 2 7 = List.replicate 10 1 ∧
    (generate_empty_frame 2 2).length = 2 * 2 * 4 ∧
    (generate_empty_frame 2 2).getD 0 0 = 255 := by
  refine ⟨⟨by decide, by decide, rfl, ?_⟩, ?_, ?_, ?_⟩
  · intro m h1 h2
    interval_cases m
    rfl
  · exact (stallRecovery_walk_and_empty_frame s5c 2 2 7 (by decide)).2.1 5
      (List.replicate 10 1) (by decide) rfl
      (by intro m h1 h2; interval_cases m; rfl)
  · exact (stallRecovery_walk_and_empty_frame s5c 2 2 7 (by decide)).2.2.1
  · have := ((stallRecovery_walk_and_empty_frame s5c 2 2 7 (by decide)).2.2.2 0
      (by decide)).1
    simpa using this

/-! ## C9: `Wait` is absorbing -/

theorem phaseD_frameStates (s : DecState) (i : Nat) (b : Bytes) :
    (phaseD s i b).frameStates = s.frameStates := by
  unfold phaseD
  split <;> rfl

theorem phaseA_frameStates (s : DecState) (i : Nat) :
    (phaseA s i).1.frameStates = s.frameStates := by
  unfold phaseA
  split <;> rfl

theorem publishResults_frameStates (s : DecState) (r : List (Nat × Bytes)) :
    (publishResults s r).frameStates = s.frameStates := by
  rw [publishResults_eq_foldl]
  exact (foldl_deliverStep_untouched r _).1

theorem runDecodeTask_frameStates (s : DecState) (res : Except String (List (Nat × Bytes))) :
    (runDecodeTask s res).1.frameStates = s.frameStates := by
  cases res with
  | ok r =>
      show ({ publishResults s r with
          runningDecodeTasks := (publishResults s r).runningDecodeTasks - 1}).frameStates
        = s.frameStates
      rw [publishResults_frameStates]
  | error e => rfl

theorem getFrameSeq_frameStates (oracle : Oracle) (w h : Nat) (s : DecState) (i : Nat) :
    (getFrameSeq oracle w h s i).state.frameStates
      = setKey s.frameStates i FrameState.Wait := by
  have hmatch : (match (phaseA s i).2 with
      | some window =>
          ((runDecodeTask (phaseA s i).1
              (extract_frame_window_hw_rgba oracle window.1 window.2 w h).1).1,
           (extract_frame_window_hw_rgba oracle window.1 window.2 w h).2)
      | Option.none => ((phaseA s i).1, ([] : List AdapterCall))).1.frameStates
      = s.frameStates := by
    cases hphA : (phaseA s i).2 with
    | none => simp [phaseA_frameStates]
    | some window => simp [runDecodeTask_frameStates, phaseA_frameStates]
  simp only [getFrameSeq]
  split
  · split <;> simp [phaseB, hmatch]
  · split
    · simp [phaseD_frameStates, phaseB, hmatch]
    · split <;> simp [phaseD_frameStates, phaseB, hmatch]

theorem stateOf_getFrameSeq_self (oracle : Oracle) (w h : Nat) (s : DecState) (i : Nat) :
    stateOf (getFrameSeq oracle w h s i).state i = FrameState.Wait := by
  unfold stateOf
  rw [getFrameSeq_frameStates, lookupKey_setKey_self]
  rfl

theorem stateOf_getFrameSeq_other (oracle : Oracle) (w h : Nat) (s : DecState) (i k : Nat)
    (hk : i ≠ k) :
    stateOf (getFrameSeq oracle w h s i).state k = stateOf s k := by
  unfold stateOf
  rw [getFrameSeq_frameStates, lookupKey_setKey_ne _ _ _ _ hk]

theorem gcLoop_preserves_nonNone (maxB : Nat) :
    ∀ (visits : List Nat) (s : DecState) (k : Nat), stateOf s k ≠ FrameState.None →
      stateOf (gcLoop maxB s visits).1 k = stateOf s k ∧
      lookupKey (gcLoop maxB s visits).1.frames k = lookupKey s.frames k := by
  intro visits
  induction visits with
  | nil => intro s k _; exact ⟨rfl, rfl⟩
  | cons idx rest ih =>
      intro s k hk
      cases hlk : lookupKey s.frames idx with
      | none =>
          rw [show gcLoop maxB s (idx :: rest) = gcLoop maxB s rest by
            simp only [gcLoop, hlk]]
          exact ih s k hk
      | some hdl =>
          cases hdl with
          | none =>
              rw [show gcLoop maxB s (idx :: rest) = gcLoop maxB s rest by
                simp only [gcLoop, hlk]]
              exact ih s k hk
          | some payload =>
              by_cases hst : stateOf s idx = FrameState.None
              · have hne : idx ≠ k := by
                  intro hc
                  subst hc
                  exact hk hst
                set s' : DecState :=
                  { s with
                      frames := removeKey s.frames idx,
                      frameStates := setKey s.frameStates idx FrameState.Drop,
                      entireCacheSize := wrapSub s.entireCacheSize payload.length } with hs'
                have hstk : stateOf s' k = stateOf s k := by
                  simp only [hs', stateOf]
                  rw [lookupKey_setKey_ne _ _ _ _ hne]
                have hfrk : lookupKey s'.frames k = lookupKey s.frames k := by
                  simp only [hs']
                  rw [lookupKey_removeKey, if_neg hne]
                have hloop : gcLoop maxB s (idx :: rest)
                    = if s'.entireCacheSize < maxB then (s', [idx])
                      else ((gcLoop maxB s' rest).1, idx :: (gcLoop maxB s' rest).2) := by
                  simp only [gcLoop, hlk, if_pos hst]
                by_cases hbrk : s'.entireCacheSize < maxB
                · rw [hloop, if_pos hbrk]
                  exact ⟨hstk, hfrk⟩
                · rw [hloop, if_neg hbrk]
                  obtain ⟨h1, h2⟩ := ih s' k (by rw [hstk]; exact hk)
                  exact ⟨h1.trans hstk, h2.trans hfrk⟩
              · rw [show gcLoop maxB s (idx :: rest) = gcLoop maxB s rest by
                  simp only [gcLoop, hlk, if_neg hst]]
                exact ih s k hk

theorem gcSweep_preserves_nonNone (s : DecState) (m k : Nat)
    (hk : stateOf s k ≠ FrameState.None) :
    stateOf (gcSweep s m).1 k = stateOf s k ∧
    lookupKey (gcSweep s m).1.frames k = lookupKey s.frames k := by
  unfold gcSweep
  split
  · exact gcLoop_preserves_nonNone m (framesKeys s).reverse s k hk
  · exact ⟨rfl, rfl⟩

theorem getFrameSeq_sync_flag (oracle : Oracle) (w h : Nat) (s : DecState) (i : Nat)
    (hstate : stateOf s i ≠ FrameState.None) :
    (getFrameSeq oracle w h s i).tookAwaitPath = false := by
  have hmatch : (match (phaseA s i).2 with
      | some window =>
          ((runDecodeTask (phaseA s i).1
              (extract_frame_window_hw_rgba oracle window.1 window.2 w h).1).1,
           (extract_frame_window_hw_rgba oracle window.1 window.2 w h).2)
      | Option.none => ((phaseA s i).1, ([] : List AdapterCall))).1.frameStates
      = s.frameStates := by
    cases hphA : (phaseA s i).2 with
    | none => simp [phaseA_frameStates]
    | some window => simp [runDecodeTask_frameStates, phaseA_frameStates]
  simp only [getFrameSeq]
  have hcond : ∀ t : DecState, t.frameStates = s.frameStates →
      ((phaseB t i).2 = FrameState.Wait ∨ (phaseB t i).2 = FrameState.Drop) := by
    intro t ht
    have : (phaseB t i).2 = stateOf s i := by
      simp [phaseB, stateOf, ht]
    rw [this]
    cases hv : stateOf s i with
    | None => exact absurd hv hstate
    | Wait => exact Or.inl rfl
    | Drop => exact Or.inr rfl
  rw [if_pos (hcond _ hmatch)]
  split <;> rfl

theorem wait_persists_op (oracle : Oracle) (w h : Nat) (s : DecState) (i : Nat)
    (op : DecOp) (hw : stateOf s i = FrameState.Wait) :
    stateOf (applyDecOp oracle w h s op) i = FrameState.Wait := by
  cases op with
  | getFrame j =>
      by_cases hji : j = i
      · subst hji
        exact stateOf_getFrameSeq_self oracle w h s j
      · rw [show applyDecOp oracle w h s (DecOp.getFrame j)
            = (getFrameSeq oracle w h s j).state from rfl,
          stateOf_getFrameSeq_other oracle w h s j i hji]
        exact hw
  | gc m =>
      have := (gcSweep_preserves_nonNone s m i (by rw [hw]; intro hc; cases hc)).1
      rw [show applyDecOp oracle w h s (DecOp.gc m) = (gcSweep s m).1 from rfl, this]
      exact hw

theorem wait_persists_ops (oracle : Oracle) (w h : Nat) (ops : List DecOp) :
    ∀ (s : DecState) (i : Nat), stateOf s i = FrameState.Wait →
      stateOf (runDecOps oracle w h s ops) i = FrameState.Wait := by
  induction ops with
  | nil => intro s i hw; exact hw
  | cons op rest ih =>
      intro s i hw
      exact ih (applyDecOp oracle w h s op) i (wait_persists_op oracle w h s i op hw)

/-- C9: the `Wait` value in `frame_states` is absorbing.  (1) Every
`get_frame(i)` call leaves `frame_states[i] = Wait`.  (2) No operation
(another `get_frame` or a GC sweep) ever sets a `Wait` state back to
`None`.  (3) The GC sweeper's eviction precondition requires the state to
be `None`, so an index whose state is not `None` — in particular any index
ever passed to `get_frame` — is never evicted: the sweep changes neither
its frame-state nor its handle.  (4) A `get_frame(i)` whose prior state is
not `None` never reaches the Phase C await on the handle (it takes the
synchronous re-decode branch).  (5) Hence along any operation sequence
containing a `get_frame(i)`, the state of `i` is `Wait` from that point on
and any later `get_frame(i)` does not reach the await path — at most one
`get_frame(i)` per index ever awaits the handle. -/
theorem waitState_absorbing (oracle : Oracle) (w h : Nat) :
    (∀ (s : DecState) (i : Nat),
        stateOf (getFrameSeq oracle w h s i).state i = FrameState.Wait) ∧
    (∀ (s : DecState) (i : Nat) (op : DecOp), stateOf s i = FrameState.Wait →
        stateOf (applyDecOp oracle w h s op) i = FrameState.Wait) ∧
    (∀ (s : DecState) (i m : Nat), stateOf s i ≠ FrameState.None →
        stateOf (gcSweep s m).1 i = stateOf s i ∧
        lookupKey (gcSweep s m).1.frames i = lookupKey s.frames i) ∧
    (∀ (s : DecState) (i : Nat), stateOf s i ≠ FrameState.None →
        (getFrameSeq oracle w h s i).tookAwaitPath = false) ∧
    (∀ (s0 : DecState) (i : Nat) (pre post : List DecOp),
        stateOf (runDecOps oracle w h s0 (pre ++ DecOp.getFrame i :: post)) i
            = FrameState.Wait ∧
        (getFrameSeq oracle w h
            (runDecOps oracle w h s0 (pre ++ DecOp.getFrame i :: post)) i).tookAwaitPath
          = false) := by
  refine ⟨stateOf_getFrameSeq_self oracle w h,
          wait_persists_op oracle w h,
          fun s i m => gcSweep_preserves_nonNone s m i,
          getFrameSeq_sync_flag oracle w h, ?_⟩
  intro s0 i pre post
  have hsplit : runDecOps oracle w h s0 (pre ++ DecOp.getFrame i :: post)
      = runDecOps oracle w h
          (applyDecOp oracle w h (runDecOps oracle w h s0 pre) (DecOp.getFrame i)) post := by
    unfold runDecOps
    rw [List.foldl_append, List.foldl_cons]
  have hwait : stateOf (runDecOps oracle w h s0 (pre ++ DecOp.getFrame i :: post)) i
      = FrameState.Wait := by
    rw [hsplit]
    exact wait_persists_ops oracle w h post _ i
      (stateOf_getFrameSeq_self oracle w h (runDecOps oracle w h s0 pre) i)
  refine ⟨hwait, getFrameSeq_sync_flag oracle w h _ i ?_⟩
  rw [hwait]
  intro hc
  cases hc

set_option maxRecDepth 4096 in
/-- Witness for C9: with the concrete oracle `o2` on a fresh decoder, after
`get_frame(0)` followed by a GC sweep, the state of index 0 is `Wait` and a
further `get_frame(0)` does not take the await path; the GC sweep preserved
the `Wait` state and the index-0 handle. -/
theorem waitState_absorbing_witness :
    (stateOf (getFrameSeq o2 1 1 emptyDecState 0).state 0 ≠ FrameState.None) ∧
    (stateOf (runDecOps o2 1 1 emptyDecState
        ([] ++ DecOp.getFrame 0 :: [DecOp.gc 1000])) 0 = FrameState.Wait ∧
      (getFrameSeq o2 1 1 (runDecOps o2 1 1 emptyDecState
          ([] ++ DecOp.getFrame 0 :: [DecOp.gc 1000])) 0).tookAwaitPath = false) ∧
    (getFrameSeq o2 1 1 (getFrameSeq o2 1 1 emptyDecState 0).state 0).tookAwaitPath
      = false := by
  refine ⟨by decide, (waitState_absorbing o2 1 1).2.2.2.2 emptyDecState 0 [] [DecOp.gc 1000], ?_⟩
  exact (waitState_absorbing o2 1 1).2.2.2.1 (getFrameSeq o2 1 1 emptyDecState 0).state 0
    (by decide)

theorem taskCount_set_same (ts : List (Nat × Nat)) :
    ∀ (k d a b : Nat), ts.get? k = some (d, a) → a ≠ 0 → b ≠ 0 →
      ∀ d', taskCount (ts.set k (d, b)) d' = taskCount ts d' := by
  induction ts with
  | nil => intro k d a b h; cases h
  | cons t rest ih =>
      intro k d a b h ha hb d'
      cases k with
      | zero =>
          simp only [List.get?] at h
          cases h
          simp only [List.set]
          by_cases hd : d = d'
          · subst hd
            simp [taskCount, List.filter_cons, ha, hb]
          · simp [taskCount, List.filter_cons, hd]
      | succ k' =>
          simp only [List.get?] at h
          have hrec := ih k' d a b h ha hb d'
          simp only [taskCount] at hrec
          simp only [List.set, taskCount, List.filter_cons]
          split
          · simp only [List.length_cons]
            omega
          · omega

theorem taskCount_mem_pos (ts : List (Nat × Nat)) (t : Nat × Nat)
    (hmem : t ∈ ts) (hne : t.2 ≠ 0) : 1 ≤ taskCount ts t.1 := by
  have hfilter : t ∈ ts.filter (fun t' => t'.1 == t.1 && t'.2 != 0) := by
    rw [List.mem_filter]
    refine ⟨hmem, ?_⟩
    simp [hne]
  have := List.length_pos.2 (List.ne_nil_of_mem hfilter)
  simpa [taskCount] using this

theorem taskCount_set_zero (ts : List (Nat × Nat)) :
    ∀ (k d : Nat), ts.get? k = some (d, 1) →
      ∀ d', taskCount (ts.set k (d, 0)) d'
          = if d' = d then taskCount ts d' - 1 else taskCount ts d' := by
  induction ts with
  | nil => intro k d h; cases h
  | cons t rest ih =>
      intro k d h d'
      cases k with
      | zero =>
          simp only [List.get?] at h
          cases h
          simp only [List.set]
          by_cases hd : d' = d
          · subst hd
            simp [taskCount, List.filter_cons]
          · have hd2 : ¬ d = d' := fun hc => hd hc.symm
            simp [taskCount, List.filter_cons, hd, hd2]
      | succ k' =>
          simp only [List.get?] at h
          have hmem : (d, 1) ∈ rest := List.get?_mem h
          have hpos : 1 ≤ taskCount rest d :=
            taskCount_mem_pos rest (d, 1) hmem (by simp)
          have hrec := ih k' d h d'
          by_cases hd : d' = d
          · subst hd
            rw [if_pos rfl] at hrec
            simp only [taskCount] at hrec hpos
            simp only [List.set, taskCount, List.filter_cons, if_pos rfl]
            split
            · simp only [List.length_cons]
              simp only [eq_self_iff_true, if_true]
              omega
            · simp only [eq_self_iff_true, if_true]
              omega
          · simp only [if_neg hd] at hrec
            simp only [taskCount] at hrec
            simp only [List.set, taskCount, List.filter_cons, if_neg hd]
            split
            · simp only [List.length_cons]
              omega
            · omega

theorem clearStep_inv {s s' : ClearSys} (hinv : ClearInv s) (hstep : ClearStep s s') :
    ClearInv s' := by
  obtain ⟨hcnt, hphase⟩ := hinv
  cases hstep with
  | taskWork k d n c' h =>
      refine ⟨?_, ?_⟩
      · intro d'
        show s.counters d' = taskCount (s.tasks.set k (d, n + 1)) d'
        rw [taskCount_set_same s.tasks k d (n + 2) (n + 1) h (by omega) (by omega) d']
        exact hcnt d'
      · show (match s.phase with
          | ClearPhase.notStarted => ∀ t ∈ s.tasks.set k (d, n + 1), t.2 ≠ 0 → t.1 ∈ s.registry
          | ClearPhase.swapped snap =>
              s.registry = [] ∧ ∀ t ∈ s.tasks.set k (d, n + 1), t.2 ≠ 0 → t.1 ∈ snap
          | ClearPhase.done => s.registry = [] ∧ c' = 0
              ∧ (s.tasks.set k (d, n + 1)).all (fun t => t.2 == 0) = true)
        have hdmem : (d, n + 2) ∈ s.tasks := List.get?_mem h
        cases hph : s.phase with
        | notStarted =>
            rw [hph] at hphase
            intro t ht hne
            rcases List.mem_or_eq_of_mem_set ht with ht' | rfl
            · exact hphase t ht' hne
            · exact hphase (d, n + 2) hdmem (by omega)
        | swapped snap =>
            rw [hph] at hphase
            refine ⟨hphase.1, ?_⟩
            intro t ht hne
            rcases List.mem_or_eq_of_mem_set ht with ht' | rfl
            · exact hphase.2 t ht' hne
            · exact hphase.2 (d, n + 2) hdmem (by omega)
        | done =>
            rw [hph] at hphase
            have := (List.all_eq_true.1 hphase.2.2) (d, n + 2) hdmem
            simp at this
  | taskDone k d h =>
      refine ⟨?_, ?_⟩
      · intro d'
        show (if d' = d then s.counters d' - 1 else s.counters d')
            = taskCount (s.tasks.set k (d, 0)) d'
        rw [taskCount_set_zero s.tasks k d h d', hcnt d']
      · show (match s.phase with
          | ClearPhase.notStarted => ∀ t ∈ s.tasks.set k (d, 0), t.2 ≠ 0 → t.1 ∈ s.registry
          | ClearPhase.swapped snap =>
              s.registry = [] ∧ ∀ t ∈ s.tasks.set k (d, 0), t.2 ≠ 0 → t.1 ∈ snap
          | ClearPhase.done => s.registry = [] ∧ s.cache = 0
              ∧ (s.tasks.set k (d, 0)).all (fun t => t.2 == 0) = true)
        have hdmem : (d, 1) ∈ s.tasks := List.get?_mem h
        cases hph : s.phase with
        | notStarted =>
            rw [hph] at hphase
            intro t ht hne
            rcases List.mem_or_eq_of_mem_set ht with ht' | rfl
            · exact hphase t ht' hne
            · exact absurd rfl hne
        | swapped snap =>
            rw [hph] at hphase
            refine ⟨hphase.1, ?_⟩
            intro t ht hne
            rcases List.mem_or_eq_of_mem_set ht with ht' | rfl
            · exact hphase.2 t ht' hne
            · exact absurd rfl hne
        | done =>
            rw [hph] at hphase
            have := (List.all_eq_true.1 hphase.2.2) (d, 1) hdmem
            simp at this
  | swap h =>
      refine ⟨hcnt, ?_⟩
      rw [h] at hphase
      exact ⟨rfl, hphase⟩
  | finish snap h hzero =>
      refine ⟨hcnt, ?_⟩
      rw [h] at hphase
      refine ⟨hphase.1, rfl, ?_⟩
      rw [List.all_eq_true]
      intro t ht
      by_cases hne : t.2 = 0
      · simp [hne]
      · have hsnap : t.1 ∈ snap := hphase.2 t ht hne
        have hzero' : taskCount s.tasks t.1 = 0 := by
          rw [← hcnt t.1]
          exact hzero t.1 hsnap
        have := taskCount_mem_pos s.tasks t ht hne
        omega

theorem clearReach_inv {s s' : ClearSys} (hreach : Relation.ReflTransGen ClearStep s s')
    (hinv : ClearInv s) : ClearInv s' := by
  induction hreach with
  | refl => exact hinv
  | tail _ hstep ih => exact clearStep_inv ih hstep

/-- C7: the `clear()` drain barrier.  In any interleaving of `clear` with
the decode tasks that were in flight when it began (each of which
decrements its decoder's counter as its final action), once `clear` has
swapped the registry with an empty map, observed every removed decoder's
`running_decode_tasks` at zero, and stored 0 into the byte counter as its
final step: the cache usage reads 0, the registry is empty, and every
decode task started before `clear` has fully finished — none is still
mutating shared state.  (The 50 ms poll interval is real time and is
abstracted: the poll's exit is a step enabled exactly when all counters
read zero.) -/
theorem clear_drain_barrier (s0 s : ClearSys) (hinv : ClearInv s0)
    (hreach : Relation.ReflTransGen ClearStep s0 s) (hdone : s.phase = ClearPhase.done) :
    s.cache = 0 ∧ s.registry = [] ∧ s.tasks.all (fun t => t.2 == 0) = true := by
  have hinv' := clearReach_inv hreach hinv
  obtain ⟨_, hphase⟩ := hinv'
  rw [hdone] at hphase
  exact ⟨hphase.2.1, hphase.1, hphase.2.2⟩

/-- Witness for C7: the concrete four-step drain above reaches the `done`
phase with cache 0, empty registry and all tasks finished. -/
theorem clear_drain_barrier_witness :
    ClearInv clearSys0 ∧
    (clearSys4.cache = 0 ∧ clearSys4.registry = []
      ∧ clearSys4.tasks.all (fun t => t.2 == 0) = true) := by
  have hinv0 : ClearInv clearSys0 := by
    refine ⟨?_, ?_⟩
    · intro d
      cases d with
      | zero => rfl
      | succ n => simp [clearSys0, taskCount]
    · show ∀ t ∈ clearSys0.tasks, t.2 ≠ 0 → t.1 ∈ clearSys0.registry
      intro t ht _
      fin_cases ht
      simp [clearSys0]
  have hstep1 : ClearStep clearSys0 clearSys1 :=
    ClearStep.taskWork clearSys0 0 0 0 77 rfl
  have hstep2 : ClearStep clearSys1 clearSys2 :=
    ClearStep.taskDone clearSys1 0 0 rfl
  have hstep3 : ClearStep clearSys2 clearSys3 :=
    ClearStep.swap clearSys2 rfl
  have hstep4 : ClearStep clearSys3 clearSys4 := by
    refine ClearStep.finish clearSys3 clearSys2.registry rfl ?_
    intro d hd
    fin_cases hd
    rfl
  have hreach : Relation.ReflTransGen ClearStep clearSys0 clearSys4 :=
    Relation.ReflTransGen.tail
      (Relation.ReflTransGen.tail
        (Relation.ReflTransGen.tail
          (Relation.ReflTransGen.tail Relation.ReflTransGen.refl hstep1) hstep2) hstep3)
      hstep4
  exact ⟨hinv0, clear_drain_barrier clearSys0 clearSys4 hinv0 hreach rfl⟩
